import Mathlib

/-!
Verification of the transcript-normalization core of the AgentsTV repository
(`src/agent_replay/parser.py`, data model in `src/agent_replay/models.py`).

The Python source is shallowly embedded: JSON values (the result of
`json.loads`) are the inductive type `J`; Python's dynamic attribute/type
errors are an `Except PErr` monad.  Operations that Python applies to a
dynamically-typed value are modelled by helpers (`pyGetD`, `asStr`, `asInt`,
…) which raise exactly where Python raises for non-conforming values; at a
few places (noted on the helpers) the Python source would accept an
ill-typed value and store it in a field that `models.py` declares as
`str`/`int` — there the model raises at conversion time instead, so that a
successful parse always yields a well-typed `Session`.
-/

namespace AgentReplay

/-- A JSON value, as returned by Python's `json.loads`.  Numbers are
modelled as integers (the fields the parser reads numerically are token
counts). -/
inductive J where
  | null : J
  | bool : Bool → J
  | num : Int → J
  | str : String → J
  | arr : List J → J
  | obj : List (String × J) → J

/-- Python `v == "s"` for a string literal `s` (equality of a dynamic value
with a string never raises; it is `False` for non-strings). -/
def J.isS : J → String → Bool
  | .str s, t => s = t
  | _, _ => false

/-- Dynamic errors a Python expression can raise: `.get` on a non-dict
(AttributeError) and ill-typed operands (TypeError). -/
inductive PErr where
  | attributeError : PErr
  | typeError : PErr
  deriving DecidableEq, Repr

/-- Lookup of a key in a parsed JSON object (first match; objects produced
by `json.loads` have unique keys). -/
def jlookup : List (String × J) → String → Option J
  | [], _ => none
  | (k, v) :: rest, key => if k = key then some v else jlookup rest key

/-- Python `rec.get(key, default)`: AttributeError unless `rec` is a dict. -/
def pyGetD (v : J) (key : String) (dflt : J) : Except PErr J :=
  match v with
  | .obj fs => .ok ((jlookup fs key).getD dflt)
  | _ => .error .attributeError

/-- Python `key in rec` for a dict `rec`. -/
def hasKey (v : J) (key : String) : Bool :=
  match v with
  | .obj fs => (jlookup fs key).isSome
  | _ => false

/-- Python truthiness of a JSON value. -/
def truthy : J → Bool
  | .null => false
  | .bool b => b
  | .num n => n != 0
  | .str s => s ≠ ""
  | .arr xs => !xs.isEmpty
  | .obj fs => !fs.isEmpty

/-- Require a JSON string.  Python would accept any value here and either
fail later (e.g. `.strip()`/slicing on a non-str) or store an ill-typed
value in a `str`-declared field; the model raises at conversion. -/
def asStr : J → Except PErr String
  | .str s => .ok s
  | _ => .error .typeError

/-- Require a JSON integer for arithmetic (`+=` on token counters).
Python treats booleans as 0/1 in arithmetic and raises TypeError for
other non-numbers. -/
def asInt : J → Except PErr Int
  | .num n => .ok n
  | .bool b => .ok (if b then 1 else 0)
  | _ => .error .typeError

mutual
/-- Python `str()` of a JSON value (total; the exact rendering of
containers is immaterial to the properties proved here). -/
def pyStr : J → String
  | .null => "None"
  | .bool b => if b then "True" else "False"
  | .num n => toString n
  | .str s => s
  | .arr xs => "[" ++ pyStrList xs ++ "]"
  | .obj fs => "\x7b" ++ pyStrFields fs ++ "\x7d"

def pyStrList : List J → String
  | [] => ""
  | [x] => pyStr x
  | x :: xs => pyStr x ++ ", " ++ pyStrList xs

def pyStrFields : List (String × J) → String
  | [] => ""
  | [(k, v)] => k ++ ": " ++ pyStr v
  | (k, v) :: fs => k ++ ": " ++ pyStr v ++ ", " ++ pyStrFields fs
end

/-- Python `json.dumps` of a JSON value (total; only its length after
truncation matters for the properties proved here). -/
def pyDumps (v : J) : String := pyStr v

/-! ### Python string operations

Python strings are sequences of code points; the operations below work on
`String.data` so that they match Python's semantics and evaluate by
structural recursion. -/

/-- Python `s.strip()`: remove leading and trailing whitespace. -/
def pyStrip (s : String) : String :=
  String.mk (((s.data.dropWhile Char.isWhitespace).reverse.dropWhile Char.isWhitespace).reverse)

/-- Python `s.lower()`. -/
def pyLower (s : String) : String := String.mk (s.data.map Char.toLower)

/-- Python slicing `s[:n]` (by code points). -/
def pyTake (s : String) (n : Nat) : String := String.mk (s.data.take n)

/-- Is `pat` a prefix of `s`? -/
def listPrefix : List Char → List Char → Bool
  | [], _ => true
  | _ :: _, [] => false
  | p :: ps, c :: cs => p = c && listPrefix ps cs

/-- Does `sub` occur in `s`? -/
def containsSub : List Char → List Char → Bool
  | [], sub => sub.isEmpty
  | c :: cs, sub => listPrefix sub (c :: cs) || containsSub cs sub

/-- Python `sub in s` substring containment. -/
def strContains (s sub : String) : Bool := containsSub s.data sub.data

/-- Replace-all worker; `fuel` bounds the number of steps (the caller
passes the string length, which suffices since each step consumes at least
one character). -/
def pyReplaceAux (pat rep : List Char) : Nat → List Char → List Char
  | 0, s => s
  | _ + 1, [] => []
  | fuel + 1, c :: cs =>
    if pat ≠ [] && listPrefix pat (c :: cs) then
      rep ++ pyReplaceAux pat rep fuel ((c :: cs).drop pat.length)
    else c :: pyReplaceAux pat rep fuel cs

/-- Python `s.replace(pat, rep)` (all occurrences, leftmost first; only
called with non-empty `pat`). -/
def pyReplace (s pat rep : String) : String :=
  String.mk (pyReplaceAux pat.data rep.data s.data.length s.data)

/-- Python string comparison: lexicographic on code points.  (Lean's own
`String.lt` denotes the same order but does not evaluate by structural
recursion, so the comparison is defined directly.) -/
def strLeb : List Char → List Char → Bool
  | [], _ => true
  | _ :: _, [] => false
  | c :: cs, d :: ds =>
    if c.toNat = d.toNat then strLeb cs ds else decide (c.toNat < d.toNat)

/-- Python `for x in v`: lists iterate elements, dicts iterate keys,
strings iterate characters; other values raise TypeError. -/
def pyIter : J → Except PErr (List J)
  | .arr xs => .ok xs
  | .obj fs => .ok (fs.map fun f => J.str f.1)
  | .str s => .ok (s.toList.map fun c => J.str (String.mk [c]))
  | _ => .error .typeError

/-! ## The data model (`models.py`) -/

/-- `models.EventType`. -/
inductive EventType where
  | SPAWN | THINK | TOOL_CALL | TOOL_RESULT | FILE_CREATE | FILE_UPDATE
  | FILE_READ | BASH | WEB_SEARCH | TEXT | ERROR | COMPLETE | USER
  deriving DecidableEq, Repr

/-- `models.Event`.  The field `req` does not exist in `models.py`: it is a
ghost annotation recording the `requestId` of the source record that
produced the event, used only to state the token-accounting properties. -/
structure Event where
  timestamp : String
  type : EventType
  agent_id : String
  tool_name : String := ""
  file_path : String := ""
  input_tokens : Int := 0
  output_tokens : Int := 0
  cache_read_tokens : Int := 0
  content : String := ""
  req : String := ""
  deriving DecidableEq, Repr

/-- `models.Agent`. -/
structure Agent where
  id : String
  name : String
  is_subagent : Bool := false
  color : String := "white"
  spawn_time : String := ""
  input_tokens : Int := 0
  output_tokens : Int := 0
  cache_read_tokens : Int := 0
  deriving DecidableEq, Repr

/-- `models.Session`.  The `agents` dict is an insertion-ordered
association list, matching Python dict semantics. -/
structure Session where
  id : String
  slug : String := ""
  version : String := ""
  branch : String := ""
  start_time : String := ""
  agents : List (String × Agent) := []
  events : List Event := []
  deriving DecidableEq, Repr

/-- Python `session.agents.get(aid)`. -/
def agentGet (agents : List (String × Agent)) (aid : String) : Option Agent :=
  match agents with
  | [] => none
  | (k, a) :: rest => if k = aid then some a else agentGet rest aid

/-- Mutating the agent object stored under `aid` (Python mutates the shared
object; the assoc list updates it in place). -/
def agentUpd (agents : List (String × Agent)) (aid : String) (f : Agent → Agent) :
    List (String × Agent) :=
  match agents with
  | [] => []
  | (k, a) :: rest => if k = aid then (k, f a) :: rest else (k, a) :: agentUpd rest aid f

/-- Python dict insertion `d[k] = v`: overwrite in place if present, else
append. -/
def agentSet (agents : List (String × Agent)) (aid : String) (a : Agent) :
    List (String × Agent) :=
  match agents with
  | [] => [(aid, a)]
  | (k, b) :: rest => if k = aid then (k, a) :: rest else (k, b) :: agentSet rest aid a

/-! ## Sorting (`session.events.sort(key=lambda e: e.timestamp)`)

Python's `list.sort` is a stable sort; every stable sort by the same key
produces the same output, modelled here by Mathlib's (stable) insertion
sort. -/

/-- The comparison used by `events.sort(key=lambda e: e.timestamp)`:
Python's string order on the timestamps. -/
def evLe (a b : Event) : Prop := strLeb a.timestamp.data b.timestamp.data = true

instance : DecidableRel evLe :=
  fun a b => inferInstanceAs (Decidable (strLeb a.timestamp.data b.timestamp.data = true))

theorem strLeb_refl : ∀ s : List Char, strLeb s s = true
  | [] => rfl
  | _ :: cs => by simp [strLeb, strLeb_refl cs]

theorem strLeb_total : ∀ s t : List Char, strLeb s t = true ∨ strLeb t s = true
  | [], _ => .inl rfl
  | _ :: _, [] => .inr rfl
  | c :: cs, d :: ds => by
    rcases Nat.lt_trichotomy c.toNat d.toNat with h | h | h
    · exact .inl (by simp [strLeb, Nat.ne_of_lt h, h])
    · rcases strLeb_total cs ds with ih | ih
      · exact .inl (by simp [strLeb, h, ih])
      · exact .inr (by simp [strLeb, h, ih])
    · exact .inr (by simp [strLeb, Nat.ne_of_lt h, h])

theorem strLeb_trans :
    ∀ s t u : List Char, strLeb s t = true → strLeb t u = true → strLeb s u = true
  | [], _, _, _, _ => rfl
  | c :: cs, d :: ds, e :: es, h1, h2 => by
    simp only [strLeb] at h1 h2 ⊢
    by_cases hcd : c.toNat = d.toNat
    · by_cases hde : d.toNat = e.toNat
      · rw [if_pos hcd] at h1
        rw [if_pos hde] at h2
        rw [if_pos (hcd.trans hde)]
        exact strLeb_trans cs ds es h1 h2
      · rw [if_neg hde] at h2
        rw [hcd, if_neg hde]
        exact h2
    · by_cases hde : d.toNat = e.toNat
      · rw [if_neg hcd] at h1
        rw [← hde, if_neg hcd]
        exact h1
      · rw [if_neg hcd] at h1
        rw [if_neg hde] at h2
        have hce : c.toNat < e.toNat :=
          Nat.lt_trans (of_decide_eq_true h1) (of_decide_eq_true h2)
        rw [if_neg (Nat.ne_of_lt hce)]
        exact decide_eq_true hce
  | _ :: _, [], _, h1, _ => by simp [strLeb] at h1
  | _ :: _, _ :: _, [], _, h2 => by simp [strLeb] at h2

instance : IsTotal Event evLe := ⟨fun a b => strLeb_total a.timestamp.data b.timestamp.data⟩

instance : IsTrans Event evLe :=
  ⟨fun _ _ _ h h' => strLeb_trans _ _ _ h h'⟩

/-- `session.events.sort(key=lambda e: e.timestamp)`. -/
def sortEvents (es : List Event) : List Event := List.insertionSort evLe es

/-! ## Format detection (`parser.auto_detect`, line-scanning branch)

`auto_detect` reads the file line by line, skipping blank and
JSON-invalid lines; its input is therefore modelled as the list of
successfully `json.loads`-parsed line values, in file order.  (The
whole-document branch for `.json` files is not involved in the claims
about line-delimited files.) -/

/-- One iteration of the detection loop (`parser.py` lines 54-86): `some`
means the loop returns that dialect, `none` means it falls through to the
next line. -/
def detectLine (rec : J) : Except PErr (Option String) := do
  let t ← pyGetD rec "type" J.null
  if t.isS "file-history-snapshot" then return some "claude_code"
  else if hasKey rec "sessionId" &&
      (t.isS "user" || t.isS "assistant" || t.isS "progress") then
    return some "claude_code"
  else if t.isS "session_meta" || t.isS "response_item" || t.isS "event_msg" then
    return some "codex"
  else if t.isS "message" && hasKey rec "role" then return some "codex"
  else if t.isS "session_metadata" then return some "gemini"
  else if (t.isS "user" || t.isS "gemini") && hasKey rec "content" &&
      !hasKey rec "sessionId" then
    return some "gemini"
  else if t.isS "turn_context" then return some "codex"
  else return none

/-- `parser.auto_detect` on a line-delimited (non-`.json`) file, given the
JSON-parsed line values.  Returns `"codex"` when no line matches. -/
def auto_detect : List J → Except PErr String
  | [] => .ok "codex"
  | rec :: rest => do
    match ← detectLine rec with
    | some fmt => return fmt
    | none => auto_detect rest

/-! ## Codex dialect (`parser.parse_codex`) -/

/-- `parser._extract_codex_content`. -/
def extractCodexContent (c : J) : Except PErr String :=
  match c with
  | .str s => .ok s
  | .arr blocks => do
    let parts := blocks.filterMap fun b =>
      match b with
      | .str s => some (J.str s)
      | .obj fs => some ((jlookup fs "text").getD ((jlookup fs "content").getD (J.str "")))
      | _ => none
    let strs ← (parts.filter truthy).mapM asStr
    return String.intercalate "\n" strs
  | other => .ok (if truthy other then pyStr other else "")

/-- One iteration of the record loop of `parse_codex` (lines 149-264). -/
def codexRecord (s : Session) (rec : J) : Except PErr Session := do
  let t ← pyGetD rec "type" (J.str "")
  let ts ← asStr (← pyGetD rec "timestamp" (J.str ""))
  if t.isS "session_meta" then
    let model ← asStr (← pyGetD rec "model" (J.str ""))
    return { s with start_time := ts, version := model }
  else if t.isS "response_item" then
    let item ← pyGetD rec "item" (J.obj [])
    let itype ← pyGetD item "type" (J.str "")
    let role ← pyGetD item "role" (J.str "")
    if itype.isS "message" then
      let content ← extractCodexContent (← pyGetD item "content" (J.arr []))
      if role.isS "user" then
        return { s with events := s.events ++
          [{ timestamp := ts, type := .USER, agent_id := "main", content := content }] }
      else
        return { s with events := s.events ++
          [{ timestamp := ts, type := .TEXT, agent_id := "main", content := content }] }
    else if itype.isS "function_call" then
      let name ← asStr (← pyGetD item "name" (J.str "unknown"))
      let argsJ ← pyGetD item "arguments" (J.str "")
      let etype0 := if name = "shell" then EventType.BASH else EventType.TOOL_CALL
      let etype := if name = "write_file" ∨ name = "create_file" then EventType.FILE_CREATE
        else if name = "edit_file" ∨ name = "patch" then EventType.FILE_UPDATE
        else if name = "read_file" then EventType.FILE_READ
        else etype0
      let content ← if truthy argsJ then do
          let a ← asStr argsJ
          pure (pyTake a 500)
        else pure name
      return { s with events := s.events ++
        [{ timestamp := ts, type := etype, agent_id := "main", tool_name := name,
           content := content }] }
    else if itype.isS "function_call_output" then
      let outJ ← pyGetD item "output" (J.str "")
      let content ← if truthy outJ then do
          let o ← asStr outJ
          pure (pyTake o 2000)
        else pure ""
      return { s with events := s.events ++
        [{ timestamp := ts, type := .TOOL_RESULT, agent_id := "main", content := content }] }
    else return s
  else if t.isS "message" && hasKey rec "role" then
    let role ← pyGetD rec "role" (J.str "")
    let content ← extractCodexContent (← pyGetD rec "content" (J.arr []))
    if role.isS "user" then
      return { s with events := s.events ++
        [{ timestamp := ts, type := .USER, agent_id := "main", content := content }] }
    else if role.isS "assistant" then
      return { s with events := s.events ++
        [{ timestamp := ts, type := .TEXT, agent_id := "main", content := content }] }
    else return s
  else if t.isS "event_msg" then
    let inner ← pyGetD rec "msg" (J.obj [])
    let payload ← pyGetD rec "payload" inner
    match payload with
    | .obj _ => do
      let pt ← pyGetD payload "type" J.null
      if pt.isS "token_count" then
        let info ← pyGetD payload "info" (J.obj [])
        let usage ← pyGetD info "last_token_usage" (J.obj [])
        let inT ← asInt (← pyGetD usage "input_tokens" (J.num 0))
        let outT ← asInt (← pyGetD usage "output_tokens" (J.num 0))
        let c1 ← pyGetD usage "cached_input_tokens" (J.num 0)
        let c2 ← pyGetD usage "cache_read_input_tokens" (J.num 0)
        let cacheT ← asInt (if truthy c1 then c1 else c2)
        return { s with agents := agentUpd s.agents "main" fun a =>
          { a with input_tokens := a.input_tokens + inT,
                   output_tokens := a.output_tokens + outT,
                   cache_read_tokens := a.cache_read_tokens + cacheT } }
      else return s
    | _ => return s
  else if t.isS "turn_context" then
    let payload ← pyGetD rec "payload" (J.obj [])
    let m ← pyGetD payload "model" (J.str "")
    if truthy m then
      let ms ← asStr m
      return { s with version := ms }
    else return s
  else return s

/-- `Session(id=file_path.stem)` with the eagerly created Codex main agent. -/
def codexInit (stem : String) : Session :=
  { id := stem, agents := [("main", { id := "main", name := "Codex", color := "green" })] }

/-- `parse_codex` up to (excluding) the final sort: the record loop. -/
def parse_codex_raw (stem : String) (recs : List J) : Except PErr Session :=
  recs.foldlM codexRecord (codexInit stem)

/-- The tail of `parse_codex` (lines 266-277): sort, start-time fallback,
main-agent spawn time. -/
def codexFinalize (s : Session) : Session :=
  let evs := sortEvents s.events
  let start := if s.start_time = "" then
      match evs with
      | [] => s.start_time
      | e :: _ => e.timestamp
    else s.start_time
  let agents := match evs with
    | [] => s.agents
    | e :: _ => agentUpd s.agents "main" fun a => { a with spawn_time := e.timestamp }
  { s with events := evs, start_time := start, agents := agents }

/-- `parser.parse_codex`, over the JSON-parsed records of the file. -/
def parse_codex (stem : String) (recs : List J) : Except PErr Session :=
  (parse_codex_raw stem recs).map codexFinalize

/-! ## Gemini dialect (`parser.parse_gemini`) -/

/-- Python `isinstance(v, dict)`. -/
def J.isObj : J → Bool
  | .obj _ => true
  | _ => false

/-- `Session(id=file_path.stem)` with the eagerly created Gemini main
agent. -/
def geminiInit (stem : String) : Session :=
  { id := stem, agents := [("main", { id := "main", name := "Gemini", color := "blue" })] }

/-- Tool-name classification of `_parse_gemini_json` (lines 376-382). -/
def geminiJsonToolType (name : String) : EventType :=
  let et0 := if name = "run_shell" ∨ name = "shell" then EventType.BASH else EventType.TOOL_CALL
  let low := pyLower name
  if strContains low "edit" || strContains low "update" then EventType.FILE_UPDATE
  else if strContains low "read" then EventType.FILE_READ
  else if strContains low "write" || strContains low "create" then EventType.FILE_CREATE
  else et0

/-- One part of a legacy-JSON Gemini message (lines 354-404). -/
def geminiJsonPart (role : J) (ts : String) (s : Session) (part : J) : Except PErr Session :=
  match part with
  | .obj fs => do
    let text ← asStr ((jlookup fs "text").getD (J.str ""))
    let s ← if pyStrip text ≠ "" then
        let et := if role.isS "user" then EventType.USER else EventType.TEXT
        pure { s with events := s.events ++
          [{ timestamp := ts, type := et, agent_id := "main", content := text }] }
      else pure s
    let fc := (jlookup fs "functionCall").getD J.null
    let s ← if truthy fc && fc.isObj then do
        let name ← asStr (← pyGetD fc "name" (J.str "unknown"))
        let args ← pyGetD fc "args" (J.obj [])
        let content := if truthy args then pyTake (pyDumps args) 500 else name
        pure { s with events := s.events ++
          [{ timestamp := ts, type := geminiJsonToolType name, agent_id := "main",
             tool_name := name, content := content }] }
      else pure s
    let fr := (jlookup fs "functionResponse").getD J.null
    if truthy fr && fr.isObj then do
      let resp ← pyGetD fr "response" (J.obj [])
      let content := if truthy resp then pyTake (pyDumps resp) 2000 else ""
      pure { s with events := s.events ++
        [{ timestamp := ts, type := .TOOL_RESULT, agent_id := "main", content := content }] }
    else pure s
  | _ => pure s

/-- One message of a legacy-JSON Gemini document (lines 347-404). -/
def geminiJsonMsg (s : Session) (msg : J) : Except PErr Session :=
  match msg with
  | .obj fs => do
    let role := (jlookup fs "role").getD (J.str "")
    let partsJ := (jlookup fs "parts").getD (J.arr [])
    let ct := (jlookup fs "createTime").getD (J.str "")
    let ts ← asStr ((jlookup fs "timestamp").getD ct)
    let parts ← pyIter partsJ
    parts.foldlM (geminiJsonPart role ts) s
  | _ => pure s

/-- `parser._parse_gemini_json` over the loaded document (lines 334-404),
before the final sort. -/
def geminiDocRaw (stem : String) (doc : J) : Except PErr Session := do
  let s0 := geminiInit stem
  let (msgsJ, s1) ←
    match doc with
    | .obj fs => do
      let hist := (jlookup fs "history").getD (J.arr [])
      let msgs := (jlookup fs "messages").getD hist
      let sid ← asStr ((jlookup fs "sessionId").getD (J.str s0.id))
      let ct := (jlookup fs "createTime").getD (J.str "")
      let st ← asStr ((jlookup fs "startTime").getD ct)
      pure (msgs, { s0 with id := sid, start_time := st })
    | .arr xs => pure (J.arr xs, s0)
    | _ => pure (J.arr [], s0)
  let msgs ← pyIter msgsJ
  msgs.foldlM geminiJsonMsg s1

/-- One content block of a JSONL Gemini `user`/`gemini` record
(lines 424-447): accumulates text parts and appends tool-call events. -/
def geminiLineBlock (ts : String) :
    List String × Session → J → Except PErr (List String × Session)
  | (parts, s), .obj fs => do
    let text ← asStr ((jlookup fs "text").getD (J.str ""))
    let parts := if pyStrip text ≠ "" then parts ++ [text] else parts
    let fc := (jlookup fs "functionCall").getD J.null
    if truthy fc && fc.isObj then do
      let name ← asStr (← pyGetD fc "name" (J.str "unknown"))
      let args ← pyGetD fc "args" (J.obj [])
      let tct := if name = "run_shell" ∨ name = "shell" then EventType.BASH
        else EventType.TOOL_CALL
      let content := if truthy args then pyTake (pyDumps args) 500 else name
      return (parts, { s with events := s.events ++
        [{ timestamp := ts, type := tct, agent_id := "main", tool_name := name,
           content := content }] })
    else return (parts, s)
  | (parts, s), .str str =>
    return (if pyStrip str ≠ "" then parts ++ [str] else parts, s)
  | (parts, s), _ => return (parts, s)

/-- One record of `parser._parse_gemini_jsonl` (lines 411-465). -/
def geminiLineRecord (s : Session) (rec : J) : Except PErr Session := do
  let t ← pyGetD rec "type" (J.str "")
  let tsJ ← pyGetD rec "timestamp" (J.str "")
  let ts ← asStr tsJ
  if t.isS "session_metadata" then
    let sid ← asStr (← pyGetD rec "sessionId" (J.str s.id))
    let st ← asStr (← pyGetD rec "startTime" tsJ)
    return { s with id := sid, start_time := st }
  else if t.isS "user" || t.isS "gemini" then
    let blocksJ ← pyGetD rec "content" (J.arr [])
    let et := if t.isS "user" then EventType.USER else EventType.TEXT
    let blocks ← pyIter blocksJ
    let (parts, s) ← blocks.foldlM (geminiLineBlock ts) ([], s)
    if parts ≠ [] then
      return { s with events := s.events ++
        [{ timestamp := ts, type := et, agent_id := "main",
           content := String.intercalate "\n" parts }] }
    else return s
  else if t.isS "message_update" then
    let toks ← pyGetD rec "tokens" (J.obj [])
    let inT ← asInt (← pyGetD toks "input" (J.num 0))
    let outT ← asInt (← pyGetD toks "output" (J.num 0))
    return { s with agents := agentUpd s.agents "main" fun a =>
      { a with input_tokens := a.input_tokens + inT,
               output_tokens := a.output_tokens + outT } }
  else return s

/-- `parser._parse_gemini_jsonl` (before the final sort). -/
def geminiLinesRaw (stem : String) (recs : List J) : Except PErr Session :=
  recs.foldlM geminiLineRecord (geminiInit stem)

/-- The tail of `parse_gemini` (lines 324-329): sort, start-time fallback,
main-agent spawn time. -/
def geminiFinalize (s : Session) : Session :=
  let evs := sortEvents s.events
  match evs with
  | [] => { s with events := evs }
  | e :: _ =>
    { s with events := evs,
             start_time := if s.start_time = "" then e.timestamp else s.start_time,
             agents := agentUpd s.agents "main" fun a => { a with spawn_time := e.timestamp } }

/-- `parser.parse_gemini` on a `.json` file (legacy document mode). -/
def parse_gemini_doc (stem : String) (doc : J) : Except PErr Session :=
  (geminiDocRaw stem doc).map geminiFinalize

/-- `parser.parse_gemini` on a JSONL file. -/
def parse_gemini_lines (stem : String) (recs : List J) : Except PErr Session :=
  (geminiLinesRaw stem recs).map geminiFinalize

/-! ## Claude Code dialect (`parser.parse_claude_code`, `parser._process_lines`)

The per-pass accountant state (`seen_request_ids`, `request_tokens_assigned`)
is threaded explicitly.  Two ghost components, used only to state the
token-accounting properties, do not exist in the Python source: the `req`
field on `Event` (the `requestId` of the record that produced the event)
and the `deltas` list (the `(requestId, tokens)` pairs added to the agent's
counters, recorded at the addition site). -/

/-- `parser.TOOL_TYPE_MAP.get(tool_name, EventType.TOOL_CALL)`. -/
def toolTypeMap (name : String) : EventType :=
  if name = "Bash" then .BASH
  else if name = "Read" then .FILE_READ
  else if name = "Write" then .FILE_CREATE
  else if name = "Edit" then .FILE_UPDATE
  else if name = "Glob" ∨ name = "Grep" then .TOOL_CALL
  else if name = "WebSearch" ∨ name = "WebFetch" then .WEB_SEARCH
  else if name = "Task" then .SPAWN
  else .TOOL_CALL

/-- Ghost: the `requestId` string of a record (`""` when absent or not a
string).  Used only for the `req` tag of events from `user` records. -/
def ridTag (rec : J) : String :=
  match rec with
  | .obj fs =>
    match jlookup fs "requestId" with
    | some (.str s) => s
    | _ => ""
  | _ => ""

/-- State of one `_process_lines` pass. -/
structure PLState where
  session : Session
  seen : List String
  assigned : List String
  deltas : List (String × Int × Int × Int)
  deriving Repr

/-- Append an event to the pass's session. -/
def addEvent (st : PLState) (e : Event) : PLState :=
  { st with session := { st.session with events := st.session.events ++ [e] } }

/-- The closure `_event_tokens` (lines 629-634): the record's token triple
for the first call per request id, zeros afterwards. -/
def eventTokens (rid : String) (tok : Int × Int × Int) (assigned : List String) :
    (Int × Int × Int) × List String :=
  if rid ≠ "" ∧ rid ∉ assigned then (tok, rid :: assigned)
  else ((0, 0, 0), assigned)

/-- The `(file_path, description, event_type)` computed for a `tool_use`
block (lines 670-693). -/
def toolCallFields (name : String) (input : J) : Except PErr (String × String × EventType) := do
  let etype := toolTypeMap name
  if name = "Read" ∨ name = "Write" ∨ name = "Edit" then
    let fp ← asStr (← pyGetD input "file_path" (J.str ""))
    return (fp, "", etype)
  else if name = "Bash" then
    let d1 ← pyGetD input "description" (J.str "")
    let dJ ← if truthy d1 then pure d1 else pyGetD input "command" (J.str "")
    let desc ← asStr dJ
    return ("", desc, etype)
  else if name = "Task" then
    let desc ← asStr (← pyGetD input "description" (J.str ""))
    return ("", desc, EventType.SPAWN)
  else if name = "Glob" ∨ name = "Grep" then
    let desc ← asStr (← pyGetD input "pattern" (J.str ""))
    return ("", desc, etype)
  else if name = "WebSearch" then
    let desc ← asStr (← pyGetD input "query" (J.str ""))
    return ("", desc, etype)
  else if name = "WebFetch" then
    let desc ← asStr (← pyGetD input "url" (J.str ""))
    return ("", desc, etype)
  else
    return ("", pyStr input, etype)

/-- One content block of an `assistant` record (lines 636-708). -/
def plBlock (aid ts rid : String) (tok : Int × Int × Int) (st : PLState) (block : J) :
    Except PErr PLState :=
  match block with
  | .obj fs => do
    let btype := (jlookup fs "type").getD J.null
    if btype.isS "thinking" then
      let thinking ← asStr ((jlookup fs "thinking").getD (J.str ""))
      if pyStrip thinking ≠ "" then
        let (tk, assigned) := eventTokens rid tok st.assigned
        return addEvent { st with assigned := assigned }
          { timestamp := ts, type := .THINK, agent_id := aid, content := thinking,
            input_tokens := tk.1, output_tokens := tk.2.1, cache_read_tokens := tk.2.2,
            req := rid }
      else return st
    else if btype.isS "text" then
      let text := pyStrip (← asStr ((jlookup fs "text").getD (J.str "")))
      if text ≠ "" then
        return addEvent st
          { timestamp := ts, type := .TEXT, agent_id := aid, content := text, req := rid }
      else return st
    else if btype.isS "tool_use" then
      let name ← asStr ((jlookup fs "name").getD (J.str "unknown"))
      let input := (jlookup fs "input").getD (J.obj [])
      let (fp, desc, etype) ← toolCallFields name input
      let content := if desc ≠ "" then desc else fp
      let (tk, assigned) := eventTokens rid tok st.assigned
      return addEvent { st with assigned := assigned }
        { timestamp := ts, type := etype, agent_id := aid, tool_name := name,
          file_path := fp, content := content,
          input_tokens := tk.1, output_tokens := tk.2.1, cache_read_tokens := tk.2.2,
          req := rid }
    else return st
  | _ => return st

/-- One `tool_result` scan over a block of a `user` record's content list
(lines 584-605). -/
def plUserBlock (aid ts tag : String) (st : PLState) (block : J) : Except PErr PLState :=
  match block with
  | .obj fs =>
    if ((jlookup fs "type").getD J.null).isS "tool_result" then do
      let rt := (jlookup fs "content").getD (J.str "")
      let rtStr ← match rt with
        | .arr rbs => do
          let parts := rbs.filterMap fun rb =>
            match rb with
            | .obj rfs =>
              if ((jlookup rfs "type").getD J.null).isS "text" then
                some ((jlookup rfs "text").getD (J.str ""))
              else none
            | _ => none
          let strs ← parts.mapM asStr
          pure (String.intercalate "\n" strs)
        | other => pure (pyStr other)
      let isErr := truthy ((jlookup fs "is_error").getD (J.bool false))
      return addEvent st
        { timestamp := ts, type := if isErr then .ERROR else .TOOL_RESULT,
          agent_id := aid, content := rtStr, req := tag }
    else return st
  | _ => return st

/-- One record of `_process_lines` (lines 564-708). -/
def plRecord (aid : String) (st : PLState) (rec : J) : Except PErr PLState := do
  let t ← pyGetD rec "type" J.null
  let ts ← asStr (← pyGetD rec "timestamp" (J.str ""))
  if t.isS "user" then
    let msg ← pyGetD rec "message" (J.obj [])
    let c ← pyGetD msg "content" (J.str "")
    let tag := ridTag rec
    match c with
    | .str str =>
      if pyStrip str ≠ "" then
        return addEvent st
          { timestamp := ts, type := .USER, agent_id := aid, content := str, req := tag }
      else return st
    | .arr blocks => blocks.foldlM (plUserBlock aid ts tag) st
    | _ => return st
  else if t.isS "assistant" then
    let msg ← pyGetD rec "message" (J.obj [])
    let cbJ ← pyGetD msg "content" (J.arr [])
    let usage ← pyGetD msg "usage" (J.obj [])
    let rid ← asStr (← pyGetD rec "requestId" (J.str ""))
    let inT ← asInt (← pyGetD usage "input_tokens" (J.num 0))
    let outT ← asInt (← pyGetD usage "output_tokens" (J.num 0))
    let cacheT ← asInt (← pyGetD usage "cache_read_input_tokens" (J.num 0))
    let st := if rid ≠ "" ∧ rid ∉ st.seen then
        match agentGet st.session.agents aid with
        | some _ =>
          { st with
            seen := rid :: st.seen,
            session := { st.session with agents := agentUpd st.session.agents aid fun a =>
              { a with
                input_tokens := a.input_tokens + inT,
                output_tokens := a.output_tokens + outT,
                cache_read_tokens := a.cache_read_tokens + cacheT } },
            deltas := st.deltas ++ [(rid, inT, outT, cacheT)] }
        | none => { st with seen := rid :: st.seen }
      else st
    match cbJ with
    | .arr blocks => blocks.foldlM (plBlock aid ts rid (inT, outT, cacheT)) st
    | _ => return st
  else return st

/-- `parser._process_lines`, returning the updated session and the ghost
list of one-time token deltas added to the agent, by request id. -/
def processLines (lines : List J) (aid : String) (s : Session) :
    Except PErr (Session × List (String × Int × Int × Int)) := do
  let st ← lines.foldlM (plRecord aid) ⟨s, [], [], []⟩
  return (st.session, st.deltas)

/-- `parser.AGENT_COLORS`. -/
def claudeColors : List String := ["magenta", "yellow", "green", "red", "blue", "white"]

/-- `Session(id="unknown")` with the eagerly created Claude Code main
agent. -/
def claudeInit : Session :=
  { id := "unknown", agents := [("main", { id := "main", name := "Main", color := "cyan" })] }

/-- Registration of one discovered companion file (lines 498-512): derive
the agent identity, assign the next round-robin color, register the agent,
and collect the `(agent_id, records)` pair.  The accumulator is
`(session, color_idx, collected)`. -/
def regSub (acc : Session × Nat × List (String × List J)) (sub : String × List J) :
    Except PErr (Session × Nat × List (String × List J)) := do
  let (s, cidx, coll) := acc
  let (stem, saLines) := sub
  match saLines with
  | [] => pure (s, cidx, coll)
  | first :: _ =>
    let agent_id ← asStr (← pyGetD first "agentId" (J.str (pyReplace stem "agent-" "")))
    let shortId := if agent_id.length > 7 then pyTake agent_id 7 else agent_id
    let agent : Agent :=
      { id := agent_id, name := shortId, is_subagent := true,
        color := claudeColors.getD (cidx % claudeColors.length) "" }
    pure ({ s with agents := agentSet s.agents agent_id agent }, cidx + 1,
      coll ++ [(agent_id, saLines)])

/-- Sub-agent registration (lines 497-512).  Sub-agent discovery walks the
filesystem (lines 479-493); the model takes the discovered companion files
as a `(file stem, parsed records)` list, in the sorted order the glob
produces.  Returns the session with the registered agents and the
`(agent_id, records)` pairs to process. -/
def registerSubs (subFiles : List (String × List J)) (s : Session) :
    Except PErr (Session × List (String × List J)) := do
  let (s, _, collected) ← subFiles.foldlM regSub (s, 0, [])
  return (s, collected)

/-- The metadata search of `parse_claude_code` (lines 525-526): the first
record of the main file whose type is `user`/`assistant` and which carries
a `sessionId`. -/
def claudeFindMeta : List J → Except PErr (Option J)
  | [] => .ok none
  | rec :: rest => do
    let t ← pyGetD rec "type" J.null
    if (t.isS "user" || t.isS "assistant") && hasKey rec "sessionId" then
      return some rec
    else claudeFindMeta rest

/-- Setting session metadata from the found record (lines 527-532). -/
def claudeSetMeta (lines : List J) (s : Session) : Except PErr Session := do
  match ← claudeFindMeta lines with
  | none => return s
  | some rec =>
    let sid ← asStr (← pyGetD rec "sessionId" (J.str s.id))
    let slug ← asStr (← pyGetD rec "slug" (J.str ""))
    let ver ← asStr (← pyGetD rec "version" (J.str ""))
    let br ← asStr (← pyGetD rec "gitBranch" (J.str ""))
    let st ← asStr (← pyGetD rec "timestamp" (J.str ""))
    return { s with id := sid, slug := slug, version := ver, branch := br, start_time := st }

/-- The spawn-time pass of `parse_claude_code` (lines 535-538). -/
def setSpawnTimes (evs : List Event) (agents : List (String × Agent)) :
    List (String × Agent) :=
  evs.foldl (fun ags e =>
    match agentGet ags e.agent_id with
    | some a =>
      if a.spawn_time = "" then
        agentUpd ags e.agent_id fun a => { a with spawn_time := e.timestamp }
      else ags
    | none => ags) agents

/-- Processing of one collected sub-agent's records (lines 518-519). -/
def processSub (s : Session) (sub : String × List J) : Except PErr Session := do
  let (s, _) ← processLines sub.2 sub.1 s
  pure s

/-- `parse_claude_code` up to (excluding) the final sort: registration and
record processing for the main agent and each sub-agent. -/
def parse_claude_code_raw (lines : List J) (subFiles : List (String × List J)) :
    Except PErr Session := do
  let (s, collected) ← registerSubs subFiles claudeInit
  let (s, _) ← processLines lines "main" s
  let s ← collected.foldlM processSub s
  return s

/-- `parser.parse_claude_code`, over the main file's records and the
discovered sub-agent files. -/
def parse_claude_code (lines : List J) (subFiles : List (String × List J)) :
    Except PErr Session := do
  let s ← parse_claude_code_raw lines subFiles
  let s := { s with events := sortEvents s.events }
  let s ← claudeSetMeta lines s
  return { s with agents := setSpawnTimes s.events s.agents }

/-- The format dispatch of `parser.parse` (lines 107-113) for a
line-delimited (non-`.json`) file, cache aside: `auto_detect` then the
matching dialect parser.  `stem` is the file-name stem used for default
session ids. -/
def parseDispatch (stem : String) (recs : List J) (subFiles : List (String × List J)) :
    Except PErr Session := do
  let fmt ← auto_detect recs
  if fmt = "claude_code" then parse_claude_code recs subFiles
  else if fmt = "gemini" then parse_gemini_lines stem recs
  else parse_codex stem recs

/-! ## Parse cache (`parser.parse`, lines 96-124)

The cache is the insertion-ordered dict `_parse_cache` keyed on
`(resolved path, mtime)`; modification times enter the claims only through
key equality, so they are modelled as integers. -/

/-- One cache entry: `(resolved path, mtime) -> Session`. -/
structure CacheEntry where
  path : String
  mtime : Int
  sess : Session
  deriving DecidableEq, Repr

/-- `parser._PARSE_CACHE_MAX`. -/
def PARSE_CACHE_MAX : Nat := 64

/-- The cache manipulation of one `parse(path)` call (lines 101-124):
lookup of the `(path, mtime)` key, and on a miss the stale purge for the
path, the oldest-entry eviction at capacity (`next(iter(...))` is the
first inserted key), and the insertion of the new entry at the end.
`s` is the session the normalizer produced on a miss. -/
def cacheStep (c : List CacheEntry) (p : String) (m : Int) (s : Session) : List CacheEntry :=
  if c.any (fun e => e.path == p && e.mtime == m) then c
  else
    let purged := c.filter fun e => !(e.path == p && e.mtime != m)
    let evicted := if PARSE_CACHE_MAX ≤ purged.length then purged.tail else purged
    evicted ++ [⟨p, m, s⟩]

/-- Holds when the parse result is a session satisfying `p` (used to state
concrete evaluations of the embedded parsers). -/
def okAnd (r : Except PErr Session) (p : Session → Bool) : Bool :=
  match r with
  | .ok s => p s
  | .error _ => false

/-! ## Invariants of the record loops -/

/-- The keys of the `agents` dict. -/
def agentKeys (s : Session) : List String := s.agents.map Prod.fst

theorem agentUpd_map_fst (ags : List (String × Agent)) (aid : String) (f : Agent → Agent) :
    (agentUpd ags aid f).map Prod.fst = ags.map Prod.fst := by
  induction ags with
  | nil => rfl
  | cons p rest ih =>
    obtain ⟨k, a⟩ := p
    unfold agentUpd
    split <;> simp [ih]

/-- `s'` extends `s`: same agent keys, and every event is an old one or
satisfies `Q`. -/
def SessStep (Q : Event → Prop) (s s' : Session) : Prop :=
  agentKeys s' = agentKeys s ∧ ∀ e ∈ s'.events, e ∈ s.events ∨ Q e

theorem SessStep.sessRefl {Q : Event → Prop} (s : Session) : SessStep Q s s :=
  ⟨Eq.refl _, fun _ he => .inl he⟩

theorem SessStep.sessTrans {Q : Event → Prop} {a b c : Session}
    (h1 : SessStep Q a b) (h2 : SessStep Q b c) : SessStep Q a c := by
  refine ⟨h2.1.trans h1.1, fun e he => ?_⟩
  rcases h2.2 e he with hb | hq
  · exact h1.2 e hb
  · exact .inr hq

/-- An `Except`-valued fold preserves any reflexive transitive relation
that each step establishes. -/
theorem foldlM_rel {σ β : Type} {f : σ → β → Except PErr σ} {P : σ → σ → Prop}
    (hrefl : ∀ s, P s s) (htrans : ∀ a b c, P a b → P b c → P a c)
    (hf : ∀ s b s', f s b = .ok s' → P s s') :
    ∀ (l : List β) (s s' : σ), l.foldlM f s = .ok s' → P s s'
  | [], s, s', h => by
    simp only [List.foldlM_nil] at h
    cases h
    exact hrefl s
  | b :: l, s, s', h => by
    rw [List.foldlM_cons] at h
    cases hfb : f s b with
    | error e => rw [hfb] at h; exact Except.noConfusion h
    | ok s1 =>
      rw [hfb] at h
      exact htrans s s1 s' (hf s b s1 hfb) (foldlM_rel hrefl htrans hf l s1 s' h)

/-- Shape of every event the codex and gemini normalizers append: owned by
the main agent, no per-event token counts, tool results truncated to 2000
characters and tool-call content to 500 characters unless it is the
verbatim tool name. -/
def EvOK (e : Event) : Prop :=
  e.agent_id = "main" ∧ e.input_tokens = 0 ∧ e.output_tokens = 0 ∧
  e.cache_read_tokens = 0 ∧
  (e.type = .TOOL_RESULT → e.content.length ≤ 2000) ∧
  ((e.type = .BASH ∨ e.type = .TOOL_CALL ∨ e.type = .FILE_CREATE ∨
      e.type = .FILE_UPDATE ∨ e.type = .FILE_READ) →
    e.content.length ≤ 500 ∨ e.content = e.tool_name)

theorem pyTake_length_le (s : String) (n : Nat) : (pyTake s n).length ≤ n := by
  show (s.data.take n).length ≤ n
  rw [List.length_take]
  exact Nat.min_le_left _ _

set_option maxHeartbeats 3200000 in
theorem codexRecord_ok (s : Session) (rec : J) (s' : Session)
    (h : codexRecord s rec = .ok s') : SessStep EvOK s s' := by
  unfold codexRecord at h
  simp only [bind, Except.bind, pure, Except.pure] at h
  repeat (any_goals (split at h))
  all_goals (try exact Except.noConfusion h)
  all_goals (injection h with h; subst h)
  all_goals refine ⟨by simp [agentKeys, agentUpd_map_fst], ?_⟩
  all_goals (
    intro e he
    try simp only [List.mem_append, List.mem_singleton] at he
    first
      | exact .inl he
      | (rcases he with he | he
         · exact .inl he
         · subst he
           exact .inr (by simp +decide [EvOK, pyTake_length_le])))

theorem geminiJsonToolType_ne (name : String) :
    ¬ geminiJsonToolType name = EventType.TOOL_RESULT := by
  cases h1 : strContains (pyLower name) "edit" <;>
  cases h2 : strContains (pyLower name) "update" <;>
  cases h3 : strContains (pyLower name) "read" <;>
  cases h4 : strContains (pyLower name) "write" <;>
  cases h5 : strContains (pyLower name) "create" <;>
  by_cases h6 : name = "run_shell" ∨ name = "shell" <;>
  simp [geminiJsonToolType, h1, h2, h3, h4, h5, h6]

set_option maxHeartbeats 3200000 in
theorem geminiJsonPart_ok (role : J) (ts : String) (s : Session) (part : J) (s' : Session)
    (h : geminiJsonPart role ts s part = .ok s') : SessStep EvOK s s' := by
  unfold geminiJsonPart at h
  simp only [bind, Except.bind, pure, Except.pure] at h
  repeat (any_goals (split at h))
  all_goals (try exact Except.noConfusion h)
  all_goals (injection h with h; subst h)
  all_goals refine ⟨by simp [agentKeys, agentUpd_map_fst], ?_⟩
  all_goals (
    intro e he
    try simp only [List.mem_append, List.mem_singleton] at he
    first
      | exact .inl he
      | (rcases he with he | he
         · exact .inl he
         · subst he
           exact .inr (by simp +decide [EvOK, pyTake_length_le, geminiJsonToolType_ne]))
      | (rcases he with (he | he) | he
         · exact .inl he
         · subst he
           exact .inr (by simp +decide [EvOK, pyTake_length_le, geminiJsonToolType_ne])
         · subst he
           exact .inr (by simp +decide [EvOK, pyTake_length_le, geminiJsonToolType_ne]))
      | (rcases he with ((he | he) | he) | he
         · exact .inl he
         · subst he
           exact .inr (by simp +decide [EvOK, pyTake_length_le, geminiJsonToolType_ne])
         · subst he
           exact .inr (by simp +decide [EvOK, pyTake_length_le, geminiJsonToolType_ne])
         · subst he
           exact .inr (by simp +decide [EvOK, pyTake_length_le, geminiJsonToolType_ne])))

theorem geminiJsonMsg_ok (s : Session) (msg : J) (s' : Session)
    (h : geminiJsonMsg s msg = .ok s') : SessStep EvOK s s' := by
  unfold geminiJsonMsg at h
  cases msg with
  | obj fs =>
    simp only [bind, Except.bind] at h
    repeat (any_goals (split at h))
    all_goals (try exact Except.noConfusion h)
    all_goals
      exact foldlM_rel SessStep.sessRefl (fun _ _ _ => SessStep.sessTrans)
        (fun a b c hh => geminiJsonPart_ok _ _ a b c hh) _ _ _ h
  | null => (injection h with h; subst h; exact SessStep.sessRefl _)
  | bool b => (injection h with h; subst h; exact SessStep.sessRefl _)
  | num n => (injection h with h; subst h; exact SessStep.sessRefl _)
  | str s2 => (injection h with h; subst h; exact SessStep.sessRefl _)
  | arr xs => (injection h with h; subst h; exact SessStep.sessRefl _)

set_option maxHeartbeats 3200000 in
theorem geminiLineBlock_ok (ts : String) (ps : List String × Session) (b : J)
    (ps' : List String × Session) (h : geminiLineBlock ts ps b = .ok ps') :
    SessStep EvOK ps.2 ps'.2 := by
  obtain ⟨parts, s⟩ := ps
  cases b <;> simp only [geminiLineBlock, bind, Except.bind, pure, Except.pure] at h
  all_goals repeat (any_goals (split at h))
  all_goals (try exact Except.noConfusion h)
  all_goals (injection h with h; subst h)
  all_goals refine ⟨by simp [agentKeys], ?_⟩
  all_goals (
    intro e he
    try simp only [List.mem_append, List.mem_singleton] at he
    first
      | exact .inl he
      | (rcases he with he | he
         · exact .inl he
         · subst he
           exact .inr (by simp +decide [EvOK, pyTake_length_le])))

set_option maxHeartbeats 3200000 in
theorem geminiLineRecord_ok (s : Session) (rec : J) (s' : Session)
    (h : geminiLineRecord s rec = .ok s') : SessStep EvOK s s' := by
  unfold geminiLineRecord at h
  simp only [bind, Except.bind, pure, Except.pure] at h
  repeat (any_goals (split at h))
  all_goals (try exact Except.noConfusion h)
  all_goals (injection h with h; subst h)
  all_goals try exact SessStep.sessRefl _
  all_goals try exact ⟨by simp [agentKeys, agentUpd_map_fst], fun e he => .inl he⟩
  -- remaining: the user/gemini branch, via the block fold
  all_goals (
    refine SessStep.sessTrans
      (foldlM_rel (P := fun x y : List String × Session => SessStep EvOK x.2 y.2)
        (fun x => SessStep.sessRefl _) (fun _ _ _ hab hbc => SessStep.sessTrans hab hbc)
        (fun a b c hh => geminiLineBlock_ok _ a b c hh) _ _ _ (by assumption)) ?_
    first
      | exact SessStep.sessRefl _
      | (refine ⟨by simp [agentKeys], fun e he => ?_⟩
         simp only [List.mem_append, List.mem_singleton] at he
         rcases he with he | he
         · exact .inl he
         · subst he
           exact .inr (by simp +decide [EvOK])))

/-- The per-pass ownership predicate: events appended by a `_process_lines`
pass for `aid` belong to `aid`. -/
def OwnedBy (aid : String) (e : Event) : Prop := e.agent_id = aid

set_option maxHeartbeats 3200000 in
theorem plUserBlock_ok (aid ts tag : String) (st : PLState) (block : J) (st' : PLState)
    (h : plUserBlock aid ts tag st block = .ok st') :
    SessStep (OwnedBy aid) st.session st'.session := by
  cases block <;> simp only [plUserBlock, bind, Except.bind, pure, Except.pure] at h
  all_goals repeat (any_goals (split at h))
  all_goals (try exact Except.noConfusion h)
  all_goals (injection h with h; subst h)
  all_goals refine ⟨by simp [addEvent, agentKeys], ?_⟩
  all_goals (
    intro e he
    try simp only [addEvent, List.mem_append, List.mem_singleton] at he
    first
      | exact .inl he
      | (rcases he with he | he
         · exact .inl he
         · subst he; exact .inr rfl))

set_option maxHeartbeats 3200000 in
theorem plBlock_ok (aid ts rid : String) (tok : Int × Int × Int) (st : PLState) (block : J)
    (st' : PLState) (h : plBlock aid ts rid tok st block = .ok st') :
    SessStep (OwnedBy aid) st.session st'.session := by
  cases block <;> simp only [plBlock, bind, Except.bind, pure, Except.pure] at h
  all_goals repeat (any_goals (split at h))
  all_goals (try exact Except.noConfusion h)
  all_goals (injection h with h; subst h)
  all_goals refine ⟨by simp [addEvent, agentKeys], ?_⟩
  all_goals (
    intro e he
    try simp only [addEvent, List.mem_append, List.mem_singleton] at he
    first
      | exact .inl he
      | (rcases he with he | he
         · exact .inl he
         · subst he; exact .inr rfl))

set_option maxHeartbeats 6400000 in
theorem plRecord_ok (aid : String) (st : PLState) (rec : J) (st' : PLState)
    (h : plRecord aid st rec = .ok st') :
    SessStep (OwnedBy aid) st.session st'.session := by
  unfold plRecord at h
  simp only [bind, Except.bind, pure, Except.pure] at h
  repeat (any_goals (split at h))
  all_goals (try exact Except.noConfusion h)
  all_goals (try (injection h with h; subst h))
  all_goals try exact SessStep.sessRefl _
  all_goals try exact ⟨by simp [agentKeys, agentUpd_map_fst], fun e he => .inl he⟩
  all_goals try (
    refine ⟨by simp [addEvent, agentKeys], fun e he => ?_⟩
    simp only [addEvent, List.mem_append, List.mem_singleton] at he
    rcases he with he | he
    · exact .inl he
    · subst he; exact .inr rfl)
  all_goals first
    | (have hf := foldlM_rel
          (P := fun x y : PLState => SessStep (OwnedBy aid) x.session y.session)
          (fun x => SessStep.sessRefl _) (fun _ _ _ hab hbc => SessStep.sessTrans hab hbc)
          (fun a b c hh => plUserBlock_ok aid _ _ a b c hh) _ _ _ h
       exact SessStep.sessTrans (SessStep.sessRefl _) hf)
    | (have hf := foldlM_rel
          (P := fun x y : PLState => SessStep (OwnedBy aid) x.session y.session)
          (fun x => SessStep.sessRefl _) (fun _ _ _ hab hbc => SessStep.sessTrans hab hbc)
          (fun a b c hh => plBlock_ok aid _ _ _ a b c hh) _ _ _ h
       refine SessStep.sessTrans ?_ hf
       exact ⟨by simp [agentKeys, agentUpd_map_fst], fun e he => .inl he⟩)


theorem processLines_ok (lines : List J) (aid : String) (s : Session) (s' : Session)
    (ds : List (String × Int × Int × Int))
    (h : processLines lines aid s = .ok (s', ds)) :
    SessStep (OwnedBy aid) s s' := by
  simp only [processLines, bind, Except.bind, pure, Except.pure] at h
  cases hf : lines.foldlM (plRecord aid) ⟨s, [], [], []⟩ with
  | error e => rw [hf] at h; exact Except.noConfusion h
  | ok st =>
    rw [hf] at h
    injection h with h
    have hrel := foldlM_rel
      (P := fun x y : PLState => SessStep (OwnedBy aid) x.session y.session)
      (fun x => SessStep.sessRefl _) (fun _ _ _ hab hbc => SessStep.sessTrans hab hbc)
      (fun a b c hh => plRecord_ok aid a b c hh) _ _ _ hf
    have hs : s' = st.session := congrArg Prod.fst h.symm
    rw [hs]
    exact hrel

theorem agentSet_mem_keys (ags : List (String × Agent)) (k : String) (a : Agent) :
    k ∈ (agentSet ags k a).map Prod.fst := by
  induction ags with
  | nil => simp [agentSet]
  | cons p rest ih =>
    obtain ⟨k', b⟩ := p
    unfold agentSet
    split
    · simp_all
    · simp [ih]

theorem agentSet_keys_mono (ags : List (String × Agent)) (k : String) (a : Agent)
    (k' : String) (h : k' ∈ ags.map Prod.fst) :
    k' ∈ (agentSet ags k a).map Prod.fst := by
  induction ags with
  | nil => simp at h
  | cons p rest ih =>
    obtain ⟨k2, b⟩ := p
    unfold agentSet
    simp only [List.map_cons, List.mem_cons] at h
    split
    · simpa using h
    · rcases h with h | h
      · simp [h]
      · simp [ih h]

/-- Step relation of the sub-agent registration fold: keys grow, events
are untouched, and collected entries are registered. -/
def RegStep (x y : Session × Nat × List (String × List J)) : Prop :=
  (∀ k ∈ agentKeys x.1, k ∈ agentKeys y.1) ∧ y.1.events = x.1.events ∧
    ∀ p ∈ y.2.2, p.1 ∈ agentKeys y.1 ∨ p ∈ x.2.2

theorem RegStep.regRefl (x : Session × Nat × List (String × List J)) : RegStep x x :=
  ⟨fun _ hk => hk, Eq.refl _, fun _ hp => .inr hp⟩

theorem RegStep.regTrans {a b c : Session × Nat × List (String × List J)}
    (hab : RegStep a b) (hbc : RegStep b c) : RegStep a c := by
  refine ⟨fun k hk => hbc.1 k (hab.1 k hk), hbc.2.1.trans hab.2.1, fun p hp => ?_⟩
  rcases hbc.2.2 p hp with h1 | h1
  · exact .inl h1
  · rcases hab.2.2 p h1 with h2 | h2
    · exact .inl (hbc.1 _ h2)
    · exact .inr h2

theorem regSub_ok (a : Session × Nat × List (String × List J)) (b : String × List J)
    (c : Session × Nat × List (String × List J)) (hh : regSub a b = .ok c) :
    RegStep a c := by
  obtain ⟨s1, cidx1, coll1⟩ := a
  obtain ⟨stem, saLines⟩ := b
  cases saLines with
  | nil =>
    simp only [regSub, bind, Except.bind, pure, Except.pure] at hh
    injection hh with hh
    subst hh
    exact RegStep.regRefl _
  | cons first rest =>
    simp only [regSub, bind, Except.bind, pure, Except.pure] at hh
    repeat (any_goals (split at hh))
    all_goals (try exact Except.noConfusion hh)
    all_goals (injection hh with hh; subst hh)
    all_goals (
      refine ⟨fun k hk => agentSet_keys_mono _ _ _ k hk, rfl, fun p hp => ?_⟩
      simp only [List.mem_append, List.mem_singleton] at hp
      rcases hp with hp | hp
      · exact .inr hp
      · subst hp
        exact .inl (agentSet_mem_keys _ _ _))

theorem registerSubs_ok (subs : List (String × List J)) (s : Session) (s' : Session)
    (coll : List (String × List J)) (h : registerSubs subs s = .ok (s', coll)) :
    (∀ k ∈ agentKeys s, k ∈ agentKeys s') ∧ s'.events = s.events ∧
      ∀ p ∈ coll, p.1 ∈ agentKeys s' := by
  simp only [registerSubs, bind, Except.bind, pure, Except.pure] at h
  cases hf : subs.foldlM regSub (s, 0, []) with
  | error e => rw [hf] at h; exact Except.noConfusion h
  | ok acc =>
    obtain ⟨a1, a2, a3⟩ := acc
    rw [hf] at h
    injection h with h
    injection h with h1 h2
    subst h1
    subst h2
    have hrel := foldlM_rel (P := RegStep) RegStep.regRefl
      (fun _ _ _ hab hbc => RegStep.regTrans hab hbc) regSub_ok _ _ _ hf
    refine ⟨hrel.1, hrel.2.1, fun p hp => ?_⟩
    rcases hrel.2.2 p hp with h1 | h1
    · exact h1
    · simp at h1



theorem processSub_ok (s : Session) (sub : String × List J) (s' : Session)
    (h : processSub s sub = .ok s') : SessStep (OwnedBy sub.1) s s' := by
  simp only [processSub, bind, Except.bind, pure, Except.pure] at h
  cases hp : processLines sub.2 sub.1 s with
  | error e => rw [hp] at h; exact Except.noConfusion h
  | ok pr =>
    obtain ⟨s1, ds⟩ := pr
    rw [hp] at h
    injection h with h
    subst h
    exact processLines_ok _ _ _ _ _ hp

theorem processSubs_fold_ok :
    ∀ (coll : List (String × List J)) (s s' : Session),
      coll.foldlM processSub s = .ok s' → (∀ p ∈ coll, p.1 ∈ agentKeys s) →
      agentKeys s' = agentKeys s ∧
        ∀ e ∈ s'.events, e ∈ s.events ∨ e.agent_id ∈ agentKeys s
  | [], s, s', h, _ => by
    simp only [List.foldlM_nil] at h
    cases h
    exact ⟨rfl, fun e he => .inl he⟩
  | p :: rest, s, s', h, hmem => by
    rw [List.foldlM_cons] at h
    cases hp : processSub s p with
    | error e => rw [hp] at h; exact Except.noConfusion h
    | ok s1 =>
      rw [hp] at h
      have hstep := processSub_ok s p s1 hp
      have ih := processSubs_fold_ok rest s1 s' h (fun q hq => by
        rw [hstep.1]
        exact hmem q (List.mem_cons_of_mem _ hq))
      refine ⟨ih.1.trans hstep.1, fun e he => ?_⟩
      rcases ih.2 e he with h1 | h1
      · rcases hstep.2 e h1 with h2 | h2
        · exact .inl h2
        · rw [h2]
          exact .inr (hmem p (List.mem_cons_self _ _))
      · rw [hstep.1] at h1
        exact .inr h1

theorem claudeSetMeta_same (lines : List J) (s : Session) (s' : Session)
    (h : claudeSetMeta lines s = .ok s') :
    s'.events = s.events ∧ s'.agents = s.agents := by
  simp only [claudeSetMeta, bind, Except.bind, pure, Except.pure] at h
  repeat (any_goals (split at h))
  all_goals (try exact Except.noConfusion h)
  all_goals (injection h with h; subst h)
  all_goals exact ⟨rfl, rfl⟩

theorem setSpawnTimes_keys :
    ∀ (evs : List Event) (ags : List (String × Agent)),
      (setSpawnTimes evs ags).map Prod.fst = ags.map Prod.fst
  | [], ags => rfl
  | e :: evs, ags => by
    have h1 : setSpawnTimes (e :: evs) ags = setSpawnTimes evs
        (match agentGet ags e.agent_id with
         | some a =>
           if a.spawn_time = "" then
             agentUpd ags e.agent_id fun a => { a with spawn_time := e.timestamp }
           else ags
         | none => ags) := rfl
    rw [h1, setSpawnTimes_keys evs]
    split
    · split
      · exact agentUpd_map_fst _ _ _
      · rfl
    · rfl

theorem sortEvents_mem (es : List Event) (e : Event) : e ∈ sortEvents es ↔ e ∈ es :=
  List.mem_insertionSort evLe

theorem sortEvents_sorted (es : List Event) : List.Sorted evLe (sortEvents es) :=
  List.sorted_insertionSort evLe es



theorem codexFinalize_events (s : Session) :
    (codexFinalize s).events = sortEvents s.events := rfl

theorem codexFinalize_keys (s : Session) :
    agentKeys (codexFinalize s) = agentKeys s := by
  unfold codexFinalize agentKeys
  cases hevs : sortEvents s.events <;> simp [hevs, agentUpd_map_fst]

theorem geminiFinalize_events (s : Session) :
    (geminiFinalize s).events = sortEvents s.events := by
  unfold geminiFinalize
  cases hevs : sortEvents s.events <;> simp [hevs]

theorem geminiFinalize_keys (s : Session) :
    agentKeys (geminiFinalize s) = agentKeys s := by
  unfold geminiFinalize agentKeys
  cases hevs : sortEvents s.events <;> simp [hevs, agentUpd_map_fst]

theorem parse_codex_eq (stem : String) (recs : List J) (s : Session)
    (h : parse_codex stem recs = .ok s) :
    ∃ sr, parse_codex_raw stem recs = .ok sr ∧ s = codexFinalize sr := by
  unfold parse_codex at h
  cases hr : parse_codex_raw stem recs with
  | error e => rw [hr] at h; exact Except.noConfusion h
  | ok sr =>
    rw [hr] at h
    injection h with h
    exact ⟨sr, rfl, h.symm⟩

theorem parse_gemini_lines_eq (stem : String) (recs : List J) (s : Session)
    (h : parse_gemini_lines stem recs = .ok s) :
    ∃ sr, geminiLinesRaw stem recs = .ok sr ∧ s = geminiFinalize sr := by
  unfold parse_gemini_lines at h
  cases hr : geminiLinesRaw stem recs with
  | error e => rw [hr] at h; exact Except.noConfusion h
  | ok sr =>
    rw [hr] at h
    injection h with h
    exact ⟨sr, rfl, h.symm⟩

theorem parse_gemini_doc_eq (stem : String) (doc : J) (s : Session)
    (h : parse_gemini_doc stem doc = .ok s) :
    ∃ sr, geminiDocRaw stem doc = .ok sr ∧ s = geminiFinalize sr := by
  unfold parse_gemini_doc at h
  cases hr : geminiDocRaw stem doc with
  | error e => rw [hr] at h; exact Except.noConfusion h
  | ok sr =>
    rw [hr] at h
    injection h with h
    exact ⟨sr, rfl, h.symm⟩

theorem parse_codex_raw_ok (stem : String) (recs : List J) (sr : Session)
    (h : parse_codex_raw stem recs = .ok sr) : SessStep EvOK (codexInit stem) sr :=
  foldlM_rel SessStep.sessRefl (fun _ _ _ => SessStep.sessTrans)
    (fun a b c hh => codexRecord_ok a b c hh) _ _ _ h

theorem geminiLinesRaw_ok (stem : String) (recs : List J) (sr : Session)
    (h : geminiLinesRaw stem recs = .ok sr) : SessStep EvOK (geminiInit stem) sr :=
  foldlM_rel SessStep.sessRefl (fun _ _ _ => SessStep.sessTrans)
    (fun a b c hh => geminiLineRecord_ok a b c hh) _ _ _ h

theorem geminiDocRaw_ok (stem : String) (doc : J) (sr : Session)
    (h : geminiDocRaw stem doc = .ok sr) : SessStep EvOK (geminiInit stem) sr := by
  unfold geminiDocRaw at h
  simp only [bind, Except.bind, pure, Except.pure] at h
  repeat (any_goals (split at h))
  all_goals (try exact Except.noConfusion h)
  all_goals (
    refine SessStep.sessTrans ?_
      (foldlM_rel (P := SessStep EvOK) SessStep.sessRefl (fun _ _ _ => SessStep.sessTrans)
        (fun a b c hh => geminiJsonMsg_ok a b c hh) _ _ _ h)
    exact ⟨by simp [agentKeys, geminiInit], fun e he => .inl he⟩)

/-- `parse_claude_code` splits into the raw phase, the sort, and the
events/agents-preserving metadata passes. -/
theorem parse_claude_code_eq (lines : List J) (subs : List (String × List J)) (s : Session)
    (h : parse_claude_code lines subs = .ok s) :
    ∃ sr, parse_claude_code_raw lines subs = .ok sr ∧
      s.events = sortEvents sr.events ∧ agentKeys s = agentKeys sr := by
  unfold parse_claude_code at h
  simp only [bind, Except.bind, pure, Except.pure] at h
  cases hr : parse_claude_code_raw lines subs with
  | error e => rw [hr] at h; exact Except.noConfusion h
  | ok sr =>
    rw [hr] at h
    dsimp only at h
    cases hm : claudeSetMeta lines { sr with events := sortEvents sr.events } with
    | error e => rw [hm] at h; exact Except.noConfusion h
    | ok s2 =>
      rw [hm] at h
      injection h with h
      have hsame := claudeSetMeta_same _ _ _ hm
      refine ⟨sr, rfl, ?_, ?_⟩
      · rw [← h]
        exact hsame.1
      · rw [← h]
        show (setSpawnTimes s2.events s2.agents).map Prod.fst = agentKeys sr
        rw [setSpawnTimes_keys, hsame.2]
        rfl

theorem parse_claude_code_raw_ok (lines : List J) (subs : List (String × List J))
    (sr : Session) (h : parse_claude_code_raw lines subs = .ok sr) :
    "main" ∈ agentKeys sr ∧ ∀ e ∈ sr.events, e.agent_id ∈ agentKeys sr := by
  unfold parse_claude_code_raw at h
  simp only [bind, Except.bind, pure, Except.pure] at h
  cases hreg : registerSubs subs claudeInit with
  | error e => rw [hreg] at h; exact Except.noConfusion h
  | ok pr =>
    obtain ⟨s0, coll⟩ := pr
    rw [hreg] at h
    dsimp only at h
    cases hpl : processLines lines "main" s0 with
    | error e => rw [hpl] at h; exact Except.noConfusion h
    | ok pr2 =>
      obtain ⟨s1, ds⟩ := pr2
      rw [hpl] at h
      dsimp only at h
      cases hfold : coll.foldlM processSub s1 with
      | error e => rw [hfold] at h; exact Except.noConfusion h
      | ok s2 =>
        rw [hfold] at h
        injection h with h
        subst h
        have hreg' := registerSubs_ok _ _ _ _ hreg
        have hpl' := processLines_ok _ _ _ _ _ hpl
        have hmain0 : "main" ∈ agentKeys s0 :=
          hreg'.1 "main" (by simp [claudeInit, agentKeys])
        have hmem1 : ∀ p ∈ coll, p.1 ∈ agentKeys s1 := fun p hp => by
          rw [hpl'.1]
          exact hreg'.2.2 p hp
        have hfold' := processSubs_fold_ok coll s1 s2 hfold hmem1
        have hkeys : agentKeys s2 = agentKeys s0 := hfold'.1.trans hpl'.1
        refine ⟨by rw [hkeys]; exact hmain0, fun e he => ?_⟩
        rcases hfold'.2 e he with h1 | h1
        · rcases hpl'.2 e h1 with h2 | h2
          · rw [hreg'.2.1] at h2
            simp [claudeInit] at h2
          · rw [h2, hkeys]
            exact hmain0
        · rw [hpl'.1] at h1
          rw [hkeys]
          exact h1


theorem evLe_of_eq_ts {a b : Event} (h : a.timestamp = b.timestamp) : evLe a b := by
  unfold evLe
  rw [h]
  exact strLeb_refl _

theorem filter_orderedInsert_ts (t : String) (a : Event) (l : List Event) :
    (List.orderedInsert evLe a l).filter (fun e => e.timestamp == t) =
      if a.timestamp == t then a :: l.filter (fun e => e.timestamp == t)
      else l.filter (fun e => e.timestamp == t) := by
  induction l with
  | nil =>
    cases pa : a.timestamp == t <;> simp [List.orderedInsert, List.filter, pa]
  | cons b l ih =>
    by_cases hab : evLe a b
    · rw [List.orderedInsert_of_le evLe l hab]
      by_cases pa : a.timestamp = t <;> by_cases pb : b.timestamp = t <;>
        simp [List.filter_cons, pa, pb]
    · rw [show List.orderedInsert evLe a (b :: l) = b :: List.orderedInsert evLe a l from
        by simp [List.orderedInsert, hab]]
      by_cases pa : a.timestamp = t
      · have pbf : ¬ b.timestamp = t := fun pb =>
          hab (evLe_of_eq_ts (pa.trans pb.symm))
        simp [List.filter_cons, pa, pbf, ih]
      · by_cases pb : b.timestamp = t <;> simp [List.filter_cons, pa, pb, ih]

theorem sortEvents_stable (t : String) (es : List Event) :
    (sortEvents es).filter (fun e => e.timestamp == t) =
      es.filter (fun e => e.timestamp == t) := by
  unfold sortEvents
  induction es with
  | nil => rfl
  | cons a l ih =>
    rw [List.insertionSort, filter_orderedInsert_ts, ih]
    by_cases pa : a.timestamp = t <;> simp [List.filter_cons, pa]



/-- **C1** (confirmed).  For every readable transcript file — any list of
JSON-parsed records, and, for Claude Code, any discovered sub-agent files —
the events of the Session returned by the dialect parser invoked by
`parse` are sorted by timestamp in non-decreasing order under lexicographic
string comparison, and the sort is stable on ties: for every timestamp the
subsequence of events carrying it is exactly, in order, the subsequence the
record loops produced before the final sort, regardless of how main-agent
and sub-agent events interleave. -/
theorem parse_events_sorted_and_stable :
    (∀ stem recs s, parse_codex stem recs = .ok s →
      s.events.Sorted evLe ∧
        ∀ sr, parse_codex_raw stem recs = .ok sr → ∀ t,
          s.events.filter (fun e => e.timestamp == t) =
            sr.events.filter (fun e => e.timestamp == t)) ∧
    (∀ lines subs s, parse_claude_code lines subs = .ok s →
      s.events.Sorted evLe ∧
        ∀ sr, parse_claude_code_raw lines subs = .ok sr → ∀ t,
          s.events.filter (fun e => e.timestamp == t) =
            sr.events.filter (fun e => e.timestamp == t)) ∧
    (∀ stem recs s, parse_gemini_lines stem recs = .ok s →
      s.events.Sorted evLe ∧
        ∀ sr, geminiLinesRaw stem recs = .ok sr → ∀ t,
          s.events.filter (fun e => e.timestamp == t) =
            sr.events.filter (fun e => e.timestamp == t)) ∧
    (∀ stem doc s, parse_gemini_doc stem doc = .ok s →
      s.events.Sorted evLe ∧
        ∀ sr, geminiDocRaw stem doc = .ok sr → ∀ t,
          s.events.filter (fun e => e.timestamp == t) =
            sr.events.filter (fun e => e.timestamp == t)) := by
  refine ⟨fun stem recs s h => ?_, fun lines subs s h => ?_,
    fun stem recs s h => ?_, fun stem doc s h => ?_⟩
  · obtain ⟨sr', hraw, hs⟩ := parse_codex_eq stem recs s h
    subst hs
    rw [codexFinalize_events]
    refine ⟨sortEvents_sorted _, fun sr hsr t => ?_⟩
    rw [hraw] at hsr
    injection hsr with hsr
    subst hsr
    exact sortEvents_stable t _
  · obtain ⟨sr', hraw, hev, _⟩ := parse_claude_code_eq lines subs s h
    rw [hev]
    refine ⟨sortEvents_sorted _, fun sr hsr t => ?_⟩
    rw [hraw] at hsr
    injection hsr with hsr
    subst hsr
    exact sortEvents_stable t _
  · obtain ⟨sr', hraw, hs⟩ := parse_gemini_lines_eq stem recs s h
    subst hs
    rw [geminiFinalize_events]
    refine ⟨sortEvents_sorted _, fun sr hsr t => ?_⟩
    rw [hraw] at hsr
    injection hsr with hsr
    subst hsr
    exact sortEvents_stable t _
  · obtain ⟨sr', hraw, hs⟩ := parse_gemini_doc_eq stem doc s h
    subst hs
    rw [geminiFinalize_events]
    refine ⟨sortEvents_sorted _, fun sr hsr t => ?_⟩
    rw [hraw] at hsr
    injection hsr with hsr
    subst hsr
    exact sortEvents_stable t _

/-- Witness for C1 at a concrete input. -/
theorem parse_events_sorted_and_stable_witness :
    (codexFinalize (codexInit "w")).events.Sorted evLe ∧
    (codexFinalize (codexInit "w")).events.filter (fun e => e.timestamp == "x") =
      (codexInit "w").events.filter (fun e => e.timestamp == "x") :=
  ⟨(parse_events_sorted_and_stable.1 "w" [] _ rfl).1,
   (parse_events_sorted_and_stable.1 "w" [] _ rfl).2 _ rfl "x"⟩

/-- **C9** (confirmed).  Every Session returned by a dialect parser has an
agent keyed `"main"` in its agents dict, and every event's `agent_id` is a
key of that dict. -/
theorem sessions_have_main_and_valid_agent_ids :
    (∀ stem recs s, parse_codex stem recs = .ok s →
      "main" ∈ agentKeys s ∧ ∀ e ∈ s.events, e.agent_id ∈ agentKeys s) ∧
    (∀ lines subs s, parse_claude_code lines subs = .ok s →
      "main" ∈ agentKeys s ∧ ∀ e ∈ s.events, e.agent_id ∈ agentKeys s) ∧
    (∀ stem recs s, parse_gemini_lines stem recs = .ok s →
      "main" ∈ agentKeys s ∧ ∀ e ∈ s.events, e.agent_id ∈ agentKeys s) ∧
    (∀ stem doc s, parse_gemini_doc stem doc = .ok s →
      "main" ∈ agentKeys s ∧ ∀ e ∈ s.events, e.agent_id ∈ agentKeys s) := by
  refine ⟨fun stem recs s h => ?_, fun lines subs s h => ?_,
    fun stem recs s h => ?_, fun stem doc s h => ?_⟩
  · obtain ⟨sr, hraw, hs⟩ := parse_codex_eq stem recs s h
    subst hs
    have hstep := parse_codex_raw_ok stem recs sr hraw
    have hkeys : agentKeys (codexFinalize sr) = ["main"] := by
      rw [codexFinalize_keys, hstep.1]
      rfl
    refine ⟨by simp [hkeys], fun e he => ?_⟩
    rw [codexFinalize_events] at he
    rw [sortEvents_mem] at he
    rcases hstep.2 e he with h1 | h1
    · simp [codexInit] at h1
    · rw [hkeys, h1.1]
      simp
  · obtain ⟨sr, hraw, hev, hkeys⟩ := parse_claude_code_eq lines subs s h
    have hok := parse_claude_code_raw_ok lines subs sr hraw
    refine ⟨by rw [hkeys]; exact hok.1, fun e he => ?_⟩
    rw [hev, sortEvents_mem] at he
    rw [hkeys]
    exact hok.2 e he
  · obtain ⟨sr, hraw, hs⟩ := parse_gemini_lines_eq stem recs s h
    subst hs
    have hstep := geminiLinesRaw_ok stem recs sr hraw
    have hkeys : agentKeys (geminiFinalize sr) = ["main"] := by
      rw [geminiFinalize_keys, hstep.1]
      rfl
    refine ⟨by simp [hkeys], fun e he => ?_⟩
    rw [geminiFinalize_events] at he
    rw [sortEvents_mem] at he
    rcases hstep.2 e he with h1 | h1
    · simp [geminiInit] at h1
    · rw [hkeys, h1.1]
      simp
  · obtain ⟨sr, hraw, hs⟩ := parse_gemini_doc_eq stem doc s h
    subst hs
    have hstep := geminiDocRaw_ok stem doc sr hraw
    have hkeys : agentKeys (geminiFinalize sr) = ["main"] := by
      rw [geminiFinalize_keys, hstep.1]
      rfl
    refine ⟨by simp [hkeys], fun e he => ?_⟩
    rw [geminiFinalize_events] at he
    rw [sortEvents_mem] at he
    rcases hstep.2 e he with h1 | h1
    · simp [geminiInit] at h1
    · rw [hkeys, h1.1]
      simp

/-- Witness for C9 at a concrete input. -/
theorem sessions_have_main_and_valid_agent_ids_witness :
    "main" ∈ agentKeys claudeInit ∧
      ∀ e ∈ claudeInit.events, e.agent_id ∈ agentKeys claudeInit :=
  sessions_have_main_and_valid_agent_ids.2.1 [] [] claudeInit rfl

/-- **C10** (confirmed).  For the codex and gemini dialects, every event of
the returned Session carries zero input/output/cache-read token counts, and
the agents dict holds only the main agent, so dialect token usage is
accumulated exclusively on the main agent's counters. -/
theorem codex_gemini_events_zero_tokens :
    (∀ stem recs s, parse_codex stem recs = .ok s →
      (∀ e ∈ s.events, e.input_tokens = 0 ∧ e.output_tokens = 0 ∧
        e.cache_read_tokens = 0) ∧ agentKeys s = ["main"]) ∧
    (∀ stem recs s, parse_gemini_lines stem recs = .ok s →
      (∀ e ∈ s.events, e.input_tokens = 0 ∧ e.output_tokens = 0 ∧
        e.cache_read_tokens = 0) ∧ agentKeys s = ["main"]) ∧
    (∀ stem doc s, parse_gemini_doc stem doc = .ok s →
      (∀ e ∈ s.events, e.input_tokens = 0 ∧ e.output_tokens = 0 ∧
        e.cache_read_tokens = 0) ∧ agentKeys s = ["main"]) := by
  refine ⟨fun stem recs s h => ?_, fun stem recs s h => ?_, fun stem doc s h => ?_⟩
  · obtain ⟨sr, hraw, hs⟩ := parse_codex_eq stem recs s h
    subst hs
    have hstep := parse_codex_raw_ok stem recs sr hraw
    refine ⟨fun e he => ?_, by rw [codexFinalize_keys, hstep.1]; rfl⟩
    rw [codexFinalize_events, sortEvents_mem] at he
    rcases hstep.2 e he with h1 | h1
    · simp [codexInit] at h1
    · exact ⟨h1.2.1, h1.2.2.1, h1.2.2.2.1⟩
  · obtain ⟨sr, hraw, hs⟩ := parse_gemini_lines_eq stem recs s h
    subst hs
    have hstep := geminiLinesRaw_ok stem recs sr hraw
    refine ⟨fun e he => ?_, by rw [geminiFinalize_keys, hstep.1]; rfl⟩
    rw [geminiFinalize_events, sortEvents_mem] at he
    rcases hstep.2 e he with h1 | h1
    · simp [geminiInit] at h1
    · exact ⟨h1.2.1, h1.2.2.1, h1.2.2.2.1⟩
  · obtain ⟨sr, hraw, hs⟩ := parse_gemini_doc_eq stem doc s h
    subst hs
    have hstep := geminiDocRaw_ok stem doc sr hraw
    refine ⟨fun e he => ?_, by rw [geminiFinalize_keys, hstep.1]; rfl⟩
    rw [geminiFinalize_events, sortEvents_mem] at he
    rcases hstep.2 e he with h1 | h1
    · simp [geminiInit] at h1
    · exact ⟨h1.2.1, h1.2.2.1, h1.2.2.2.1⟩

/-- Witness for C10 at a concrete input. -/
theorem codex_gemini_events_zero_tokens_witness :
    (∀ e ∈ (codexFinalize (codexInit "w")).events,
      e.input_tokens = 0 ∧ e.output_tokens = 0 ∧ e.cache_read_tokens = 0) ∧
    agentKeys (codexFinalize (codexInit "w")) = ["main"] :=
  codex_gemini_events_zero_tokens.1 "w" [] _ rfl



/-- A Claude Code `user` record carrying a 2001-character tool result. -/
def longToolResultRec : J :=
  J.obj [("type", J.str "user"), ("timestamp", J.str "t1"),
    ("message", J.obj [("content", J.arr [J.obj [("type", J.str "tool_result"),
      ("content", J.str (String.mk (List.replicate 2001 'a')))]])])]

/-- **C7** (counterexample).  The claim fails on the Claude Code dialect:
`_process_lines` stores tool-result content without truncation, so a
2001-character payload produces a tool-result event whose content exceeds
2000 characters. -/
def longS : String := String.mk (List.replicate 2001 'a')

/-- The session the Claude Code parser produces for `longToolResultRec`. -/
def longSession : Session :=
  { id := "unknown",
    agents := [("main",
      { id := "main", name := "Main", color := "cyan", spawn_time := "t1" })],
    events := [{ timestamp := "t1", type := .TOOL_RESULT, agent_id := "main",
                 content := longS }] }

theorem claude_tool_result_not_truncated :
    parse_claude_code [longToolResultRec] [] = .ok longSession ∧
    (longSession.events.map fun e => (e.type, e.content.length)) =
      [(EventType.TOOL_RESULT, 2001)] := by
  constructor
  · rfl
  · show [(EventType.TOOL_RESULT, (List.replicate 2001 'a').length)] = _
    rw [List.length_replicate]

/-- **C7** (amended).  In the codex and gemini dialects every tool-result
event's content is at most 2000 characters, and every tool-call-classified
event's content is at most 500 characters unless it is the verbatim tool
name (used when the arguments are empty); the Claude Code dialect applies
no truncation. -/
theorem codex_gemini_truncation_bounds :
    (∀ stem recs s, parse_codex stem recs = .ok s → ∀ e ∈ s.events,
      (e.type = .TOOL_RESULT → e.content.length ≤ 2000) ∧
      ((e.type = .BASH ∨ e.type = .TOOL_CALL ∨ e.type = .FILE_CREATE ∨
          e.type = .FILE_UPDATE ∨ e.type = .FILE_READ) →
        e.content.length ≤ 500 ∨ e.content = e.tool_name)) ∧
    (∀ stem recs s, parse_gemini_lines stem recs = .ok s → ∀ e ∈ s.events,
      (e.type = .TOOL_RESULT → e.content.length ≤ 2000) ∧
      ((e.type = .BASH ∨ e.type = .TOOL_CALL ∨ e.type = .FILE_CREATE ∨
          e.type = .FILE_UPDATE ∨ e.type = .FILE_READ) →
        e.content.length ≤ 500 ∨ e.content = e.tool_name)) ∧
    (∀ stem doc s, parse_gemini_doc stem doc = .ok s → ∀ e ∈ s.events,
      (e.type = .TOOL_RESULT → e.content.length ≤ 2000) ∧
      ((e.type = .BASH ∨ e.type = .TOOL_CALL ∨ e.type = .FILE_CREATE ∨
          e.type = .FILE_UPDATE ∨ e.type = .FILE_READ) →
        e.content.length ≤ 500 ∨ e.content = e.tool_name)) := by
  refine ⟨fun stem recs s h e he => ?_, fun stem recs s h e he => ?_,
    fun stem doc s h e he => ?_⟩
  · obtain ⟨sr, hraw, hs⟩ := parse_codex_eq stem recs s h
    subst hs
    rw [codexFinalize_events, sortEvents_mem] at he
    rcases (parse_codex_raw_ok stem recs sr hraw).2 e he with h1 | h1
    · simp [codexInit] at h1
    · exact ⟨h1.2.2.2.2.1, h1.2.2.2.2.2⟩
  · obtain ⟨sr, hraw, hs⟩ := parse_gemini_lines_eq stem recs s h
    subst hs
    rw [geminiFinalize_events, sortEvents_mem] at he
    rcases (geminiLinesRaw_ok stem recs sr hraw).2 e he with h1 | h1
    · simp [geminiInit] at h1
    · exact ⟨h1.2.2.2.2.1, h1.2.2.2.2.2⟩
  · obtain ⟨sr, hraw, hs⟩ := parse_gemini_doc_eq stem doc s h
    subst hs
    rw [geminiFinalize_events, sortEvents_mem] at he
    rcases (geminiDocRaw_ok stem doc sr hraw).2 e he with h1 | h1
    · simp [geminiInit] at h1
    · exact ⟨h1.2.2.2.2.1, h1.2.2.2.2.2⟩

/-- Witness for the amended C7 at a concrete input. -/
theorem codex_gemini_truncation_bounds_witness :
    ∀ e ∈ (codexFinalize (codexInit "w")).events,
      (e.type = .TOOL_RESULT → e.content.length ≤ 2000) ∧
      ((e.type = .BASH ∨ e.type = .TOOL_CALL ∨ e.type = .FILE_CREATE ∨
          e.type = .FILE_UPDATE ∨ e.type = .FILE_READ) →
        e.content.length ≤ 500 ∨ e.content = e.tool_name) :=
  codex_gemini_truncation_bounds.1 "w" [] _ rfl

/-- **C3** (code-bug evidence).  A record that is valid JSON but not an
object — here a file whose single line is `42` — crashes the whole parse
with an AttributeError (`rec.get` on a non-dict in `auto_detect`), instead
of being skipped; a well-formed but unrecognized object record is indeed
absorbed. -/
theorem parse_fails_on_nonobject_record :
    parseDispatch "f" [J.num 42] [] = .error .attributeError ∧
    okAnd (parseDispatch "f" [J.obj [("foo", J.num 1)]] []) (fun _ => true) = true :=
  ⟨rfl, rfl⟩

/-- **C6** (code-bug evidence).  `auto_detect` does fall back to "codex"
for an empty file and for unmatched object records, but it raises an
AttributeError on a line holding a JSON non-object value (here the string
`"hello"`) instead of returning the fallback. -/
theorem auto_detect_fails_on_nonobject_line :
    auto_detect [] = .ok "codex" ∧
    auto_detect [J.obj [("foo", J.num 1)]] = .ok "codex" ∧
    auto_detect [J.str "hello"] = .error .attributeError :=
  ⟨rfl, rfl, rfl⟩


/-- Invariant of `_parse_cache`: within the capacity bound, and at most one
entry per resolved path (pairwise-distinct paths). -/
def CacheInv (c : List CacheEntry) : Prop :=
  c.length ≤ PARSE_CACHE_MAX ∧ c.Pairwise (fun a b => a.path ≠ b.path)

theorem pairwise_path_eq :
    ∀ {c : List CacheEntry}, c.Pairwise (fun a b => a.path ≠ b.path) →
      ∀ {e e' : CacheEntry}, e ∈ c → e' ∈ c → e.path = e'.path → e = e'
  | [], _, _, _, he, _, _ => absurd he (List.not_mem_nil _)
  | a :: l, hp, e, e', he, he', h => by
    rcases List.mem_cons.mp he with he1 | he1 <;> rcases List.mem_cons.mp he' with he2 | he2
    · rw [he1, he2]
    · subst he1
      exact absurd h ((List.pairwise_cons.mp hp).1 e' he2)
    · subst he2
      exact absurd h.symm ((List.pairwise_cons.mp hp).1 e he1)
    · exact pairwise_path_eq (List.pairwise_cons.mp hp).2 he1 he2 h

theorem pairwise_filter_le_one :
    ∀ {c : List CacheEntry}, c.Pairwise (fun a b => a.path ≠ b.path) →
      ∀ q : String, (c.filter fun e => e.path == q).length ≤ 1
  | [], _, _ => by simp
  | a :: l, hp, q => by
    by_cases ha : a.path = q
    · have hnil : (l.filter fun e => e.path == q) = [] := by
        rw [List.filter_eq_nil_iff]
        intro e he hq
        have : a.path ≠ e.path := (List.pairwise_cons.mp hp).1 e he
        exact this (by rw [ha]; exact (eq_of_beq hq).symm)
      simp [List.filter_cons, ha, hnil]
    · have : (a.path == q) = false := by
        simp [ha]
      simp only [List.filter_cons, this]
      exact pairwise_filter_le_one (List.pairwise_cons.mp hp).2 q



/-- **C5** (confirmed).  Starting from any cache satisfying the invariant
(within the 64-entry bound, at most one entry per path — both hold from the
empty initial cache), one `parse` call's cache manipulation preserves the
bound and the per-path uniqueness, leaves for the parsed path only the
entry with the file's current mtime (stale mtimes purged), and, on a miss
with the bound reached, evicts the oldest-inserted entry's key. -/
theorem cache_step_invariants (c : List CacheEntry) (p : String) (m : Int) (s : Session)
    (hlen : c.length ≤ PARSE_CACHE_MAX)
    (hpw : c.Pairwise (fun a b => a.path ≠ b.path)) :
    (cacheStep c p m s).length ≤ PARSE_CACHE_MAX ∧
    (cacheStep c p m s).Pairwise (fun a b => a.path ≠ b.path) ∧
    ((cacheStep c p m s).filter fun e => e.path == p).length ≤ 1 ∧
    (∀ e ∈ cacheStep c p m s, e.path = p → e.mtime = m) ∧
    ((c.any fun e => e.path == p && e.mtime == m) = false →
      PARSE_CACHE_MAX ≤ (c.filter fun e => !(e.path == p && e.mtime != m)).length →
      ∀ old ∈ (c.filter fun e => !(e.path == p && e.mtime != m)).head?,
        ∀ e ∈ cacheStep c p m s, ¬(e.path = old.path ∧ e.mtime = old.mtime)) := by
  by_cases hhit : (c.any fun e => e.path == p && e.mtime == m) = true
  · have hstep : cacheStep c p m s = c := by
      unfold cacheStep
      rw [if_pos hhit]
    rw [hstep]
    refine ⟨hlen, hpw, pairwise_filter_le_one hpw p, ?_, ?_⟩
    · intro e he hep
      obtain ⟨e0, he0, hb⟩ := List.any_eq_true.mp hhit
      rw [Bool.and_eq_true] at hb
      obtain ⟨hb1, hb2⟩ := hb
      have he0p : e0.path = p := eq_of_beq hb1
      have he0m : e0.mtime = m := eq_of_beq hb2
      have : e = e0 := pairwise_path_eq hpw he he0 (by rw [hep, he0p])
      rw [this, he0m]
    · intro hmiss
      rw [hhit] at hmiss
      exact Bool.noConfusion hmiss
  · have hnop : ∀ e ∈ (c.filter fun e => !(e.path == p && e.mtime != m)), e.path ≠ p := by
      intro e he hep
      obtain ⟨hec, hkeep⟩ := List.mem_filter.mp he
      have hbp : (e.path == p) = true := beq_iff_eq.mpr hep
      by_cases hem : e.mtime = m
      · have : (c.any fun e => e.path == p && e.mtime == m) = true :=
          List.any_eq_true.mpr ⟨e, hec, by
            rw [Bool.and_eq_true]
            exact ⟨hbp, beq_iff_eq.mpr hem⟩⟩
        exact hhit this
      · have : (e.mtime != m) = true := by
          simp [bne_iff_ne, hem]
        rw [hbp, this] at hkeep
        simp at hkeep
    have hpwp : (c.filter fun e => !(e.path == p && e.mtime != m)).Pairwise
        (fun a b => a.path ≠ b.path) :=
      List.Pairwise.sublist (List.filter_sublist c) hpw
    have hplen := List.length_filter_le (fun e => !(e.path == p && e.mtime != m)) c
    have hstep : cacheStep c p m s =
        (if PARSE_CACHE_MAX ≤ (c.filter fun e => !(e.path == p && e.mtime != m)).length
         then (c.filter fun e => !(e.path == p && e.mtime != m)).tail
         else c.filter fun e => !(e.path == p && e.mtime != m)) ++ [⟨p, m, s⟩] := by
      unfold cacheStep
      rw [if_neg hhit]
    by_cases hfull :
        PARSE_CACHE_MAX ≤ (c.filter fun e => !(e.path == p && e.mtime != m)).length
    · rw [hstep, if_pos hfull]
      have htail := List.tail_sublist (c.filter fun e => !(e.path == p && e.mtime != m))
      have hpwt := List.Pairwise.sublist htail hpwp
      have hnopt : ∀ e ∈ (c.filter fun e => !(e.path == p && e.mtime != m)).tail,
          e.path ≠ p := fun e he => hnop e (htail.subset he)
      have hpw2 : ((c.filter fun e => !(e.path == p && e.mtime != m)).tail ++
          [(⟨p, m, s⟩ : CacheEntry)]).Pairwise (fun a b => a.path ≠ b.path) := by
        rw [List.pairwise_append]
        refine ⟨hpwt, List.pairwise_singleton _ _, ?_⟩
        intro a ha b hb
        rw [List.mem_singleton] at hb
        rw [hb]
        exact hnopt a ha
      refine ⟨?_, hpw2, ?_, ?_, ?_⟩
      · have hle : (c.filter fun e => !(e.path == p && e.mtime != m)).length ≤
            PARSE_CACHE_MAX := le_trans hplen hlen
        have hge : PARSE_CACHE_MAX ≤ (c.filter fun e => !(e.path == p && e.mtime != m)).length :=
          hfull
        rw [List.length_append, List.length_tail]
        simp only [List.length_singleton]
        have hpos : 1 ≤ (List.filter (fun e => !(e.path == p && e.mtime != m)) c).length :=
          le_trans (by norm_num [PARSE_CACHE_MAX]) hge
        rw [Nat.sub_add_cancel hpos]
        exact hle
      · have hnone : (((c.filter fun e => !(e.path == p && e.mtime != m)).tail).filter
            fun e => e.path == p) = [] := by
          rw [List.filter_eq_nil_iff]
          intro e he hq
          exact hnopt e he (eq_of_beq hq)
        rw [List.filter_append, hnone]
        simp
      · intro e he hep
        rw [List.mem_append] at he
        rcases he with he | he
        · exact absurd hep (hnopt e he)
        · rw [List.mem_singleton] at he
          rw [he]
      · intro _ _ old hold e he hcon
        cases hp2 : (c.filter fun e => !(e.path == p && e.mtime != m)) with
        | nil =>
          rw [hp2] at hold
          simp at hold
        | cons a rest =>
          rw [hp2] at hold
          simp only [List.head?_cons, Option.mem_def, Option.some.injEq] at hold
          subst hold
          rw [hp2] at he
          simp only [List.tail_cons, List.mem_append, List.mem_singleton] at he
          have hpwp2 : (a :: rest).Pairwise (fun x y => x.path ≠ y.path) := hp2 ▸ hpwp
          rcases he with he | he
          · exact (List.pairwise_cons.mp hpwp2).1 e he hcon.1.symm
          · subst he
            have hap : a.path ≠ p :=
              hnop a (by rw [hp2]; exact List.mem_cons_self a rest)
            exact hap hcon.1.symm
    · rw [hstep, if_neg hfull]
      have hpw2 : ((c.filter fun e => !(e.path == p && e.mtime != m)) ++
          [(⟨p, m, s⟩ : CacheEntry)]).Pairwise (fun a b => a.path ≠ b.path) := by
        rw [List.pairwise_append]
        refine ⟨hpwp, List.pairwise_singleton _ _, ?_⟩
        intro a ha b hb
        rw [List.mem_singleton] at hb
        rw [hb]
        exact hnop a ha
      refine ⟨?_, hpw2, ?_, ?_, ?_⟩
      · rw [List.length_append]
        simp only [List.length_singleton]
        omega
      · have hnone : ((c.filter fun e => !(e.path == p && e.mtime != m)).filter
            fun e => e.path == p) = [] := by
          rw [List.filter_eq_nil_iff]
          intro e he hq
          exact hnop e he (eq_of_beq hq)
        rw [List.filter_append, hnone]
        simp
      · intro e he hep
        rw [List.mem_append] at he
        rcases he with he | he
        · exact absurd hep (hnop e he)
        · rw [List.mem_singleton] at he
          rw [he]
      · intro _ hfull2 _ _ _ _ _
        exact absurd hfull2 hfull



/-- Witness for C5 at a concrete input (the empty initial cache). -/
theorem cache_step_invariants_witness :
    (cacheStep [] "p" 0 claudeInit).length ≤ PARSE_CACHE_MAX ∧
    (cacheStep [] "p" 0 claudeInit).Pairwise (fun a b => a.path ≠ b.path) :=
  ⟨(cache_step_invariants [] "p" 0 claudeInit (by simp) List.Pairwise.nil).1,
   (cache_step_invariants [] "p" 0 claudeInit (by simp) List.Pairwise.nil).2.1⟩


theorem sortEvents_three (a b c : Event)
    (hba : strLeb b.timestamp.data a.timestamp.data = false)
    (hcb : strLeb c.timestamp.data b.timestamp.data = false) :
    sortEvents [a, c, b] = [a, b, c] := by
  have hab : evLe a b := by
    rcases strLeb_total a.timestamp.data b.timestamp.data with h | h
    · exact h
    · rw [h] at hba
      exact Bool.noConfusion hba
  have hcbP : ¬ evLe c b := by
    intro hh
    rw [evLe, hcb] at hh
    exact Bool.noConfusion hh
  show List.orderedInsert evLe a
    (List.orderedInsert evLe c (List.orderedInsert evLe b [])) = [a, b, c]
  rw [List.orderedInsert_nil]
  rw [show List.orderedInsert evLe c [b] = [b, c] from by
    unfold List.orderedInsert
    rw [if_neg hcbP, List.orderedInsert_nil]]
  rw [List.orderedInsert_of_le evLe [c] hab]

/-- A main-agent `user` record at timestamp `ts` with text `msg`. -/
def c8MainRec (ts msg : String) : J :=
  J.obj [("type", J.str "user"), ("timestamp", J.str ts),
    ("message", J.obj [("content", J.str msg)])]

/-- A sub-agent `user` record at timestamp `ts`, carrying the sub-agent's
`agentId`. -/
def c8SubRec (ts : String) : J :=
  J.obj [("type", J.str "user"), ("timestamp", J.str ts), ("agentId", J.str "s1"),
    ("message", J.obj [("content", J.str "sub work")])]

/-- **C8** (confirmed).  For a Claude Code main file with events at
timestamps `t1` and `t3` and a discovered sub-agent companion file with an
event at `t2`, where `t1 < t2 < t3` in Python's string order, the merged
Session's event sequence is exactly `[t1, t2, t3]`, the `t2` event
attributed to the sub-agent's id `"s1"` and the others to `"main"`. -/
theorem subagent_merge_ordering (t1 t2 t3 : String)
    (h21 : strLeb t2.data t1.data = false) (h32 : strLeb t3.data t2.data = false) :
    ∃ s, parse_claude_code [c8MainRec t1 "hi", c8MainRec t3 "bye"]
        [("agent-x", [c8SubRec t2])] = .ok s ∧
      s.events.map (fun e => (e.timestamp, e.agent_id)) =
        [(t1, "main"), (t2, "s1"), (t3, "main")] := by
  have hraw : parse_claude_code_raw [c8MainRec t1 "hi", c8MainRec t3 "bye"]
      [("agent-x", [c8SubRec t2])] = .ok
      { id := "unknown",
        agents := [("main", { id := "main", name := "Main", color := "cyan" }),
          ("s1", { id := "s1", name := "s1", is_subagent := true, color := "magenta" })],
        events := [{ timestamp := t1, type := .USER, agent_id := "main", content := "hi" },
          { timestamp := t3, type := .USER, agent_id := "main", content := "bye" },
          { timestamp := t2, type := .USER, agent_id := "s1", content := "sub work" }] } := rfl
  have hsort := sortEvents_three
    { timestamp := t1, type := .USER, agent_id := "main", content := "hi" }
    { timestamp := t2, type := .USER, agent_id := "s1", content := "sub work" }
    { timestamp := t3, type := .USER, agent_id := "main", content := "bye" }
    h21 h32
  unfold parse_claude_code
  simp only [bind, Except.bind, pure, Except.pure]
  rw [hraw]
  dsimp only
  rw [hsort]
  exact ⟨_, rfl, rfl⟩

/-- Witness for C8 at concrete timestamps. -/
theorem subagent_merge_ordering_witness :
    ∃ s, parse_claude_code [c8MainRec "a" "hi", c8MainRec "c" "bye"]
        [("agent-x", [c8SubRec "b"])] = .ok s ∧
      s.events.map (fun e => (e.timestamp, e.agent_id)) =
        [("a", "main"), ("b", "s1"), ("c", "main")] :=
  subagent_merge_ordering "a" "b" "c" (by decide) (by decide)



set_option maxHeartbeats 3200000 in
theorem plUserBlock_start (aid ts tag : String) (st : PLState) (block : J) (st' : PLState)
    (h : plUserBlock aid ts tag st block = .ok st') :
    st'.session.start_time = st.session.start_time := by
  cases block <;> simp only [plUserBlock, bind, Except.bind, pure, Except.pure] at h
  all_goals repeat (any_goals (split at h))
  all_goals (try exact Except.noConfusion h)
  all_goals (injection h with h; subst h)
  all_goals simp [addEvent]

set_option maxHeartbeats 3200000 in
theorem plBlock_start (aid ts rid : String) (tok : Int × Int × Int) (st : PLState) (block : J)
    (st' : PLState) (h : plBlock aid ts rid tok st block = .ok st') :
    st'.session.start_time = st.session.start_time := by
  cases block <;> simp only [plBlock, bind, Except.bind, pure, Except.pure] at h
  all_goals repeat (any_goals (split at h))
  all_goals (try exact Except.noConfusion h)
  all_goals (injection h with h; subst h)
  all_goals simp [addEvent]

set_option maxHeartbeats 6400000 in
theorem plRecord_start (aid : String) (st : PLState) (rec : J) (st' : PLState)
    (h : plRecord aid st rec = .ok st') :
    st'.session.start_time = st.session.start_time := by
  unfold plRecord at h
  simp only [bind, Except.bind, pure, Except.pure] at h
  repeat (any_goals (split at h))
  all_goals (try exact Except.noConfusion h)
  all_goals (try (injection h with h; subst h))
  all_goals try rfl
  all_goals first
    | (have hf := foldlM_rel
         (P := fun x y : PLState => y.session.start_time = x.session.start_time)
         (fun x => rfl) (fun _ _ _ hab hbc => hbc.trans hab)
         (fun a b c hh => plUserBlock_start aid _ _ a b c hh) _ _ _ h
       exact hf)
    | (have hf := foldlM_rel
         (P := fun x y : PLState => y.session.start_time = x.session.start_time)
         (fun x => rfl) (fun _ _ _ hab hbc => hbc.trans hab)
         (fun a b c hh => plBlock_start aid _ _ _ a b c hh) _ _ _ h
       exact hf)

theorem processLines_start (lines : List J) (aid : String) (s : Session) (s' : Session)
    (ds : List (String × Int × Int × Int))
    (h : processLines lines aid s = .ok (s', ds)) :
    s'.start_time = s.start_time := by
  simp only [processLines, bind, Except.bind, pure, Except.pure] at h
  cases hf : lines.foldlM (plRecord aid) ⟨s, [], [], []⟩ with
  | error e => rw [hf] at h; exact Except.noConfusion h
  | ok st =>
    rw [hf] at h
    injection h with h
    have hrel := foldlM_rel
      (P := fun x y : PLState => y.session.start_time = x.session.start_time)
      (fun x => rfl) (fun _ _ _ hab hbc => hbc.trans hab)
      (fun a b c hh => plRecord_start aid a b c hh) _ _ _ hf
    have hs : s' = st.session := congrArg Prod.fst h.symm
    rw [hs]
    exact hrel

theorem processSub_start (s : Session) (sub : String × List J) (s' : Session)
    (h : processSub s sub = .ok s') : s'.start_time = s.start_time := by
  simp only [processSub, bind, Except.bind, pure, Except.pure] at h
  cases hp : processLines sub.2 sub.1 s with
  | error e => rw [hp] at h; exact Except.noConfusion h
  | ok pr =>
    obtain ⟨s1, ds⟩ := pr
    rw [hp] at h
    injection h with h
    subst h
    exact processLines_start _ _ _ _ _ hp

theorem regSub_start (a : Session × Nat × List (String × List J)) (b : String × List J)
    (c : Session × Nat × List (String × List J)) (hh : regSub a b = .ok c) :
    c.1.start_time = a.1.start_time := by
  obtain ⟨s1, cidx1, coll1⟩ := a
  obtain ⟨stem, saLines⟩ := b
  cases saLines with
  | nil =>
    simp only [regSub, bind, Except.bind, pure, Except.pure] at hh
    injection hh with hh
    subst hh
    rfl
  | cons first rest =>
    simp only [regSub, bind, Except.bind, pure, Except.pure] at hh
    repeat (any_goals (split at hh))
    all_goals (try exact Except.noConfusion hh)
    all_goals (injection hh with hh; subst hh)
    all_goals rfl

theorem parse_claude_code_raw_start (lines : List J) (subs : List (String × List J))
    (sr : Session) (h : parse_claude_code_raw lines subs = .ok sr) :
    sr.start_time = "" := by
  unfold parse_claude_code_raw at h
  simp only [bind, Except.bind, pure, Except.pure] at h
  cases hreg : registerSubs subs claudeInit with
  | error e => rw [hreg] at h; exact Except.noConfusion h
  | ok pr =>
    obtain ⟨s0, coll⟩ := pr
    rw [hreg] at h
    dsimp only at h
    cases hpl : processLines lines "main" s0 with
    | error e => rw [hpl] at h; exact Except.noConfusion h
    | ok pr2 =>
      obtain ⟨s1, ds⟩ := pr2
      rw [hpl] at h
      dsimp only at h
      cases hfold : coll.foldlM processSub s1 with
      | error e => rw [hfold] at h; exact Except.noConfusion h
      | ok s2 =>
        rw [hfold] at h
        injection h with h
        subst h
        have h0 : s0.start_time = claudeInit.start_time := by
          simp only [registerSubs, bind, Except.bind, pure, Except.pure] at hreg
          cases hf : subs.foldlM regSub (claudeInit, 0, []) with
          | error e => rw [hf] at hreg; exact Except.noConfusion hreg
          | ok acc =>
            obtain ⟨a1, a2, a3⟩ := acc
            rw [hf] at hreg
            injection hreg with hreg
            injection hreg with hr1 hr2
            subst hr1
            exact foldlM_rel
              (P := fun x y : Session × Nat × List (String × List J) =>
                y.1.start_time = x.1.start_time)
              (fun x => rfl) (fun _ _ _ hab hbc => hbc.trans hab)
              regSub_start _ _ _ hf
        have h1 : s1.start_time = s0.start_time := processLines_start _ _ _ _ _ hpl
        have h2 : s2.start_time = s1.start_time := foldlM_rel
          (P := fun x y : Session => y.start_time = x.start_time)
          (fun x => rfl) (fun _ _ _ hab hbc => hbc.trans hab)
          processSub_start _ _ _ hfold
        rw [h2, h1, h0]
        rfl



/-- **C4** (counterexample).  The claim fails on the Claude Code dialect:
for a main file with no `user`/`assistant` record (here an empty one) and a
discovered sub-agent file with one event, the returned Session has a
non-empty events list but an empty `start_time` — there is no fallback to
the earliest event's timestamp. -/
theorem claude_start_time_empty_with_events :
    okAnd (parse_claude_code [] [("agent-x", [c8SubRec "t2"])])
      (fun s => !s.events.isEmpty && (s.start_time == "")) = true := rfl

/-- **C4** (amended).  For codex and gemini, `start_time` equals the
session's recorded start when that is non-empty and otherwise the earliest
event's timestamp after the final sort (empty only if both are missing).
For claude_code, `start_time` comes only from the first `user`/`assistant`
record carrying a `sessionId` (its `timestamp` field, defaulting to the
empty string) and is empty when no such record exists — with no fallback to
the earliest event. -/
theorem start_time_resolution :
    (∀ stem recs s sr, parse_codex_raw stem recs = .ok sr →
      parse_codex stem recs = .ok s →
      s.start_time = if sr.start_time = "" then
        ((s.events.head?.map Event.timestamp).getD "") else sr.start_time) ∧
    (∀ stem recs s sr, geminiLinesRaw stem recs = .ok sr →
      parse_gemini_lines stem recs = .ok s →
      s.start_time = if sr.start_time = "" then
        ((s.events.head?.map Event.timestamp).getD "") else sr.start_time) ∧
    (∀ stem doc s sr, geminiDocRaw stem doc = .ok sr →
      parse_gemini_doc stem doc = .ok s →
      s.start_time = if sr.start_time = "" then
        ((s.events.head?.map Event.timestamp).getD "") else sr.start_time) ∧
    (∀ lines subs s, parse_claude_code lines subs = .ok s →
      (claudeFindMeta lines = .ok none → s.start_time = "") ∧
      (∀ rec, claudeFindMeta lines = .ok (some rec) →
        ∃ tsJ ts, pyGetD rec "timestamp" (J.str "") = .ok tsJ ∧ asStr tsJ = .ok ts ∧
          s.start_time = ts)) := by
  refine ⟨fun stem recs s sr hraw h => ?_, fun stem recs s sr hraw h => ?_,
    fun stem doc s sr hraw h => ?_, fun lines subs s h => ?_⟩
  · obtain ⟨sr', hraw', hs⟩ := parse_codex_eq stem recs s h
    rw [hraw'] at hraw
    injection hraw with hraw
    subst hraw
    subst hs
    show (codexFinalize sr').start_time = _
    rw [codexFinalize_events]
    unfold codexFinalize
    cases hevs : sortEvents sr'.events <;> by_cases hst : sr'.start_time = "" <;>
      simp [hevs, hst]
  · obtain ⟨sr', hraw', hs⟩ := parse_gemini_lines_eq stem recs s h
    rw [hraw'] at hraw
    injection hraw with hraw
    subst hraw
    subst hs
    show (geminiFinalize sr').start_time = _
    rw [geminiFinalize_events]
    unfold geminiFinalize
    cases hevs : sortEvents sr'.events <;> by_cases hst : sr'.start_time = "" <;>
      simp [hevs, hst]
  · obtain ⟨sr', hraw', hs⟩ := parse_gemini_doc_eq stem doc s h
    rw [hraw'] at hraw
    injection hraw with hraw
    subst hraw
    subst hs
    show (geminiFinalize sr').start_time = _
    rw [geminiFinalize_events]
    unfold geminiFinalize
    cases hevs : sortEvents sr'.events <;> by_cases hst : sr'.start_time = "" <;>
      simp [hevs, hst]
  · unfold parse_claude_code at h
    simp only [bind, Except.bind, pure, Except.pure] at h
    cases hr : parse_claude_code_raw lines subs with
    | error e => rw [hr] at h; exact Except.noConfusion h
    | ok sr =>
      rw [hr] at h
      dsimp only at h
      cases hm : claudeSetMeta lines { sr with events := sortEvents sr.events } with
      | error e => rw [hm] at h; exact Except.noConfusion h
      | ok s2 =>
        rw [hm] at h
        injection h with h
        subst h
        have hsr0 : sr.start_time = "" := parse_claude_code_raw_start lines subs sr hr
        simp only [claudeSetMeta, bind, Except.bind, pure, Except.pure] at hm
        constructor
        · intro hnone
          rw [hnone] at hm
          dsimp only at hm
          injection hm with hm
          subst hm
          exact hsr0
        · intro rec hsome
          rw [hsome] at hm
          dsimp only at hm
          repeat (any_goals (split at hm))
          all_goals (try exact Except.noConfusion hm)
          all_goals (injection hm with hm; subst hm)
          all_goals (rename_i tsv heq
                     exact ⟨_, tsv, by assumption, heq, rfl⟩)

/-- Witness for the amended C4 at a concrete input. -/
theorem start_time_resolution_witness :
    (codexFinalize (codexInit "w")).start_time =
      if (codexInit "w").start_time = "" then
        (((codexFinalize (codexInit "w")).events.head?.map Event.timestamp).getD "")
      else (codexInit "w").start_time :=
  start_time_resolution.1 "w" [] _ _ rfl rfl

/-! ## Token accounting (C2) -/

/-- Componentwise sum of the three token fields over a list of events. -/
def sumTok (es : List Event) : Int × Int × Int :=
  ((es.map fun e => e.input_tokens).sum, (es.map fun e => e.output_tokens).sum,
   (es.map fun e => e.cache_read_tokens).sum)

/-- The events produced for a request identifier (by their ghost tag). -/
def eventsFor (es : List Event) (rid : String) : List Event :=
  es.filter fun e => e.req == rid

/-- The one-time delta recorded for a request identifier (zero if none). -/
def deltaGet (ds : List (String × Int × Int × Int)) (rid : String) : Int × Int × Int :=
  match ds.find? fun d => d.1 == rid with
  | some d => d.2
  | none => (0, 0, 0)

/-- Event types that pass through `_event_tokens` (thinking and tool-use
blocks); `user`, `text`, `tool_result` and `error` events never do. -/
def tokenBearing (t : EventType) : Prop :=
  t = .THINK ∨ t = .BASH ∨ t = .FILE_READ ∨ t = .FILE_CREATE ∨ t = .FILE_UPDATE ∨
  t = .TOOL_CALL ∨ t = .WEB_SEARCH ∨ t = .SPAWN

/-- Does the event carry a non-zero token field? -/
def tokNonzeroB (e : Event) : Bool :=
  !(e.input_tokens == 0 && e.output_tokens == 0 && e.cache_read_tokens == 0)

/-- All three token fields of the event are zero. -/
def zeroTok (e : Event) : Prop :=
  e.input_tokens = 0 ∧ e.output_tokens = 0 ∧ e.cache_read_tokens = 0

theorem eventsFor_append (es es' : List Event) (rid : String) :
    eventsFor (es ++ es') rid = eventsFor es rid ++ eventsFor es' rid := by
  simp [eventsFor, List.filter_append]

theorem sumTok_append (es es' : List Event) :
    sumTok (es ++ es') = (((sumTok es).1 + (sumTok es').1,
      (sumTok es).2.1 + (sumTok es').2.1, (sumTok es).2.2 + (sumTok es').2.2)) := by
  simp [sumTok, List.map_append, List.sum_append]

theorem sumTok_zero (es : List Event) (h : ∀ e ∈ es, zeroTok e) :
    sumTok es = (0, 0, 0) := by
  induction es with
  | nil => rfl
  | cons e es ih =>
    have he := h e (List.mem_cons_self _ _)
    have ih' := ih fun x hx => h x (List.mem_cons_of_mem _ hx)
    simp only [sumTok, List.map_cons, List.sum_cons] at *
    rw [he.1, he.2.1, he.2.2]
    simp only [Prod.mk.injEq] at ih'
    simp [ih'.1, ih'.2.1, ih'.2.2]

theorem countP_zero_of_zeroTok (es : List Event) (h : ∀ e ∈ es, zeroTok e) :
    es.countP tokNonzeroB = 0 := by
  rw [List.countP_eq_zero]
  intro e he
  have := h e he
  simp [tokNonzeroB, this.1, this.2.1, this.2.2]

theorem find?_append_single (ds : List (String × Int × Int × Int)) (k k' : String)
    (v : Int × Int × Int) (h : (k' == k) = false) :
    ((ds ++ [(k', v)]).find? fun d => d.1 == k) = ds.find? fun d => d.1 == k := by
  induction ds with
  | nil => simp [List.find?, h]
  | cons d ds ih =>
    by_cases hd : (d.1 == k) = true
    · simp [List.find?, hd]
    · simp only [Bool.not_eq_true] at hd
      simp [List.find?, hd, ih]

theorem agentGet_isSome_iff (ags : List (String × Agent)) (aid : String) :
    (agentGet ags aid).isSome ↔ aid ∈ ags.map Prod.fst := by
  induction ags with
  | nil => simp [agentGet]
  | cons p rest ih =>
    obtain ⟨k, a⟩ := p
    unfold agentGet
    by_cases hk : k = aid
    · simp [hk]
    · simp [hk, ih, Ne.symm hk]

/-- The total ghost extractor `ridTag` agrees with the value the assistant
branch actually reads when that read succeeds. -/
theorem ridTag_of_reads {rec v : J} {r : String}
    (h1 : pyGetD rec "requestId" (J.str "") = .ok v) (h2 : asStr v = .ok r) :
    ridTag rec = r := by
  cases rec <;> simp only [pyGetD] at h1
  case obj fs =>
    injection h1 with h1
    cases hj : jlookup fs "requestId" with
    | none =>
      rw [hj] at h1
      simp only [Option.getD_none] at h1
      subst h1
      injection h2 with h2
      simp [ridTag, hj, h2]
    | some w =>
      rw [hj] at h1
      simp only [Option.getD_some] at h1
      subst h1
      cases w <;> simp only [asStr] at h2 <;>
        first
        | (exact Except.noConfusion h2)
        | (injection h2 with h2
           simp [ridTag, hj, h2])
  all_goals exact Except.noConfusion h1



/-- A `tool_result` scan step appends only zero-token, non-token-bearing
events tagged with the record's request id, and leaves the bookkeeping
state untouched. -/
theorem plUserBlock_tok (aid ts tag : String) (st : PLState) (block : J) (st' : PLState)
    (h : plUserBlock aid ts tag st block = .ok st') :
    st'.seen = st.seen ∧ st'.assigned = st.assigned ∧ st'.deltas = st.deltas ∧
    st'.session.agents = st.session.agents ∧
    ∃ new, st'.session.events = st.session.events ++ new ∧
      ∀ e ∈ new, e.req = tag ∧ zeroTok e ∧ ¬ tokenBearing e.type := by
  cases block <;> simp only [plUserBlock, bind, Except.bind, pure, Except.pure] at h
  all_goals repeat (any_goals (split at h))
  all_goals (try exact Except.noConfusion h)
  all_goals (injection h with h; subst h)
  all_goals refine ⟨rfl, rfl, rfl, rfl, ?_⟩
  all_goals first
    | exact ⟨[], (List.append_nil _).symm, fun e he => absurd he (List.not_mem_nil e)⟩
    | (refine ⟨[_], rfl, ?_⟩
       intro e he
       rw [List.mem_singleton] at he
       subst he
       refine ⟨rfl, ⟨rfl, rfl, rfl⟩, ?_⟩
       simp [tokenBearing])



/-- One assistant content block: bookkeeping facts for token accounting.
Either the step attributes nothing (all appended events carry zeros, and —
if the request id was still unassigned — none of them is token-bearing,
because only a `text` block skips `_event_tokens`), or the id was fresh and
the single appended event receives exactly the record's token triple. -/
theorem plBlock_tok (aid ts r' : String) (tok : Int × Int × Int) (st : PLState) (block : J)
    (st' : PLState) (h : plBlock aid ts r' tok st block = .ok st') :
    st'.seen = st.seen ∧ st'.deltas = st.deltas ∧
    st'.session.agents = st.session.agents ∧
    ∃ new, st'.session.events = st.session.events ++ new ∧ (∀ e ∈ new, e.req = r') ∧
      ((st'.assigned = st.assigned ∧ (∀ e ∈ new, zeroTok e) ∧
        (r' ≠ "" → r' ∉ st.assigned → ∀ e ∈ new, ¬ tokenBearing e.type)) ∨
       (r' ≠ "" ∧ r' ∉ st.assigned ∧ st'.assigned = r' :: st.assigned ∧
        sumTok new = tok ∧ new.countP tokNonzeroB ≤ 1)) := by
  by_cases hc : r' ≠ "" ∧ r' ∉ st.assigned
  · cases block <;>
      simp only [plBlock, bind, Except.bind, pure, Except.pure, eventTokens, if_pos hc] at h
    all_goals repeat (any_goals (split at h))
    all_goals (try exact Except.noConfusion h)
    all_goals (injection h with h; subst h)
    all_goals refine ⟨rfl, rfl, rfl, ?_⟩
    all_goals first
      | exact ⟨[], (List.append_nil _).symm, fun e he => absurd he (List.not_mem_nil e),
          Or.inl ⟨rfl, fun e he => absurd he (List.not_mem_nil e),
            fun _ _ e he => absurd he (List.not_mem_nil e)⟩⟩
      | (refine ⟨[_], rfl, ?_, Or.inl ⟨rfl, ?_, ?_⟩⟩
         · intro e he
           rw [List.mem_singleton] at he
           subst he
           rfl
         · intro e he
           rw [List.mem_singleton] at he
           subst he
           exact ⟨rfl, rfl, rfl⟩
         · intro h1 h2 e he
           rw [List.mem_singleton] at he
           subst he
           simp [tokenBearing])
      | (refine ⟨[_], rfl, ?_, Or.inr ⟨hc.1, hc.2, rfl, ?_, ?_⟩⟩
         · intro e he
           rw [List.mem_singleton] at he
           subst he
           rfl
         · simp [sumTok]
         · exact List.countP_le_length _)
  · cases block <;>
      simp only [plBlock, bind, Except.bind, pure, Except.pure, eventTokens, if_neg hc] at h
    all_goals repeat (any_goals (split at h))
    all_goals (try exact Except.noConfusion h)
    all_goals (injection h with h; subst h)
    all_goals refine ⟨rfl, rfl, rfl, ?_⟩
    all_goals first
      | exact ⟨[], (List.append_nil _).symm, fun e he => absurd he (List.not_mem_nil e),
          Or.inl ⟨rfl, fun e he => absurd he (List.not_mem_nil e),
            fun h1 h2 => absurd ⟨h1, h2⟩ hc⟩⟩
      | (refine ⟨[_], rfl, ?_, Or.inl ⟨rfl, ?_, fun h1 h2 => absurd ⟨h1, h2⟩ hc⟩⟩
         · intro e he
           rw [List.mem_singleton] at he
           subst he
           rfl
         · intro e he
           rw [List.mem_singleton] at he
           subst he
           exact ⟨rfl, rfl, rfl⟩)



theorem find?_append_right {α : Type} (p : α → Bool) (l1 l2 : List α)
    (h : l1.find? p = none) : (l1 ++ l2).find? p = l2.find? p := by
  induction l1 with
  | nil => rfl
  | cons a l ih =>
    cases hpa : p a with
    | true => simp [List.find?_cons, hpa] at h
    | false =>
      simp only [List.find?_cons, hpa, List.cons_append] at h ⊢
      exact ih h

/-- The per-request bookkeeping visible to request id `rid` is unchanged
by a step concerning a different id. -/
def RidUntouched (rid : String) (x y : PLState) : Prop :=
  eventsFor y.session.events rid = eventsFor x.session.events rid ∧
  (rid ∈ y.seen ↔ rid ∈ x.seen) ∧ (rid ∈ y.assigned ↔ rid ∈ x.assigned) ∧
  (y.deltas.find? fun d => d.1 == rid) = (x.deltas.find? fun d => d.1 == rid) ∧
  y.session.agents.map Prod.fst = x.session.agents.map Prod.fst

theorem RidUntouched.ridRefl (rid : String) (x : PLState) : RidUntouched rid x x :=
  ⟨rfl, Iff.rfl, Iff.rfl, rfl, rfl⟩

theorem RidUntouched.ridTrans {rid : String} {x y z : PLState}
    (h1 : RidUntouched rid x y) (h2 : RidUntouched rid y z) : RidUntouched rid x z :=
  ⟨h2.1.trans h1.1, h2.2.1.trans h1.2.1, h2.2.2.1.trans h1.2.2.1,
   h2.2.2.2.1.trans h1.2.2.2.1, h2.2.2.2.2.trans h1.2.2.2.2⟩

/-- The request id `rid` is still untouched in the pass state. -/
def FreshFor (rid : String) (st : PLState) : Prop :=
  eventsFor st.session.events rid = [] ∧ rid ∉ st.seen ∧ rid ∉ st.assigned ∧
  (st.deltas.find? fun d => d.1 == rid) = none

/-- The accounting outcome for request id `rid`: either the token fields of
its events sum to the recorded one-time agent delta, or no token-bearing
event was produced for it and its events sum to zero; and at most one of
its events carries non-zero token values. -/
def DoneFor (rid : String) (st : PLState) : Prop :=
  (sumTok (eventsFor st.session.events rid) = deltaGet st.deltas rid ∨
    (sumTok (eventsFor st.session.events rid) = (0, 0, 0) ∧
      ∀ e ∈ eventsFor st.session.events rid, ¬ tokenBearing e.type)) ∧
  (eventsFor st.session.events rid).countP tokNonzeroB ≤ 1

theorem freshFor_untouched {rid : String} {x y : PLState}
    (hf : FreshFor rid x) (hu : RidUntouched rid x y) : FreshFor rid y :=
  ⟨hu.1.trans hf.1, fun hm => hf.2.1 (hu.2.1.mp hm), fun hm => hf.2.2.1 (hu.2.2.1.mp hm),
   hu.2.2.2.1.trans hf.2.2.2⟩

theorem doneFor_untouched {rid : String} {x y : PLState}
    (hd : DoneFor rid x) (hu : RidUntouched rid x y) : DoneFor rid y := by
  have hev := hu.1
  have hdl := hu.2.2.2.1
  constructor
  · rw [hev]
    rcases hd.1 with h1 | h1
    · exact .inl (by rw [deltaGet, hdl, ← deltaGet]; exact h1)
    · exact .inr h1
  · rw [hev]; exact hd.2

theorem DoneFor_nil {rid : String} {st : PLState}
    (h : eventsFor st.session.events rid = []) : DoneFor rid st := by
  rw [DoneFor, h]
  exact ⟨.inr ⟨rfl, fun e he => absurd he (List.not_mem_nil e)⟩, by simp⟩

/-- If everything appended beyond an `rid`-free event list is zero-token
and non-token-bearing, the accounting outcome for `rid` holds. -/
theorem DoneFor_zero {rid : String} {st' : PLState} {es0 : List Event}
    (hfresh : eventsFor es0 rid = [])
    (h : ∃ new, st'.session.events = es0 ++ new ∧
      ∀ e ∈ new, zeroTok e ∧ ¬ tokenBearing e.type) : DoneFor rid st' := by
  obtain ⟨new, hev, hprop⟩ := h
  have hfor : eventsFor st'.session.events rid = eventsFor new rid := by
    rw [hev, eventsFor_append, hfresh, List.nil_append]
  have hsub : ∀ e ∈ eventsFor new rid, zeroTok e ∧ ¬ tokenBearing e.type :=
    fun e he => hprop e (List.mem_of_mem_filter he)
  constructor
  · refine .inr ⟨?_, ?_⟩
    · rw [hfor]; exact sumTok_zero _ fun e he => (hsub e he).1
    · rw [hfor]; exact fun e he => (hsub e he).2
  · rw [hfor]
    have := countP_zero_of_zeroTok (eventsFor new rid) fun e he => (hsub e he).1
    rw [this]
    exact Nat.zero_le 1

/-- Relation describing a run of `user`-record `tool_result` scans: only
zero-token, non-token-bearing events are appended and the bookkeeping
lists are untouched. -/
def RelU (x y : PLState) : Prop :=
  y.seen = x.seen ∧ y.assigned = x.assigned ∧ y.deltas = x.deltas ∧
  y.session.agents = x.session.agents ∧
  ∃ new, y.session.events = x.session.events ++ new ∧
    ∀ e ∈ new, zeroTok e ∧ ¬ tokenBearing e.type

theorem RelU.uRefl (x : PLState) : RelU x x :=
  ⟨rfl, rfl, rfl, rfl, [], (List.append_nil _).symm, fun e he => absurd he (List.not_mem_nil e)⟩

theorem RelU.uTrans {x y z : PLState} (h1 : RelU x y) (h2 : RelU y z) : RelU x z := by
  obtain ⟨hs1, ha1, hd1, hg1, n1, he1, hp1⟩ := h1
  obtain ⟨hs2, ha2, hd2, hg2, n2, he2, hp2⟩ := h2
  refine ⟨hs2.trans hs1, ha2.trans ha1, hd2.trans hd1, hg2.trans hg1, n1 ++ n2, ?_, ?_⟩
  · rw [he2, he1, List.append_assoc]
  · intro e he
    rcases List.mem_append.mp he with h | h
    · exact hp1 e h
    · exact hp2 e h

theorem plUserBlock_relU (aid ts tag : String) (st : PLState) (block : J) (st' : PLState)
    (h : plUserBlock aid ts tag st block = .ok st') : RelU st st' := by
  obtain ⟨hs, ha, hd, hg, new, hev, hprop⟩ := plUserBlock_tok aid ts tag st block st' h
  exact ⟨hs, ha, hd, hg, new, hev, fun e he => ⟨(hprop e he).2.1, (hprop e he).2.2⟩⟩

/-- Relation describing a run of assistant content blocks for request id
`rid` whose record-level token triple is `u`. -/
def RelSelf (rid : String) (u : Int × Int × Int) (x y : PLState) : Prop :=
  y.seen = x.seen ∧ y.deltas = x.deltas ∧ y.session.agents = x.session.agents ∧
  ∃ new, y.session.events = x.session.events ++ new ∧ (∀ e ∈ new, e.req = rid) ∧
    ((y.assigned = x.assigned ∧ (∀ e ∈ new, zeroTok e) ∧
      (rid ∉ x.assigned → ∀ e ∈ new, ¬ tokenBearing e.type)) ∨
     (rid ∉ x.assigned ∧ y.assigned = rid :: x.assigned ∧
      sumTok new = u ∧ new.countP tokNonzeroB ≤ 1))

theorem RelSelf.selfRefl (rid : String) (u : Int × Int × Int) (x : PLState) : RelSelf rid u x x :=
  ⟨rfl, rfl, rfl, [], (List.append_nil _).symm, fun e he => absurd he (List.not_mem_nil e),
   .inl ⟨rfl, fun e he => absurd he (List.not_mem_nil e),
     fun _ e he => absurd he (List.not_mem_nil e)⟩⟩

theorem RelSelf.selfTrans {rid : String} {u : Int × Int × Int} {x y z : PLState}
    (h1 : RelSelf rid u x y) (h2 : RelSelf rid u y z) : RelSelf rid u x z := by
  obtain ⟨hs1, hd1, hg1, n1, he1, ht1, hc1⟩ := h1
  obtain ⟨hs2, hd2, hg2, n2, he2, ht2, hc2⟩ := h2
  refine ⟨hs2.trans hs1, hd2.trans hd1, hg2.trans hg1, n1 ++ n2, ?_, ?_, ?_⟩
  · rw [he2, he1, List.append_assoc]
  · intro e he
    rcases List.mem_append.mp he with h | h
    · exact ht1 e h
    · exact ht2 e h
  · rcases hc1 with ⟨ha1, hz1, hb1⟩ | ⟨hn1, ha1, hs1', hl1⟩
    · rcases hc2 with ⟨ha2, hz2, hb2⟩ | ⟨hn2, ha2, hs2', hl2⟩
      · refine .inl ⟨ha2.trans ha1, ?_, ?_⟩
        · intro e he
          rcases List.mem_append.mp he with h | h
          · exact hz1 e h
          · exact hz2 e h
        · intro hmem e he
          rcases List.mem_append.mp he with h | h
          · exact hb1 hmem e h
          · exact hb2 (ha1 ▸ hmem) e h
      · refine .inr ⟨ha1 ▸ hn2, ha2.trans (by rw [ha1]), ?_, ?_⟩
        · rw [sumTok_append, sumTok_zero n1 hz1, hs2']
          simp
        · rw [List.countP_append, countP_zero_of_zeroTok n1 hz1, Nat.zero_add]
          exact hl2
    · rcases hc2 with ⟨ha2, hz2, hb2⟩ | ⟨hn2, ha2, hs2', hl2⟩
      · refine .inr ⟨hn1, ha2.trans ha1, ?_, ?_⟩
        · rw [sumTok_append, sumTok_zero n2 hz2, hs1']
          simp
        · rw [List.countP_append, countP_zero_of_zeroTok n2 hz2, Nat.add_zero]
          exact hl1
      · exact absurd (ha1 ▸ hn2) (fun hn => hn (List.mem_cons_self rid _))

theorem plBlock_relSelf (aid ts rid : String) (u : Int × Int × Int) (st : PLState)
    (block : J) (st' : PLState) (hr : rid ≠ "") (h : plBlock aid ts rid u st block = .ok st') :
    RelSelf rid u st st' := by
  obtain ⟨hs, hd, hg, new, hev, ht, hc⟩ := plBlock_tok aid ts rid u st block st' h
  refine ⟨hs, hd, hg, new, hev, ht, ?_⟩
  rcases hc with ⟨ha, hz, hb⟩ | ⟨hn, hm, ha, hsum, hcount⟩
  · exact .inl ⟨ha, hz, fun hmem => hb hr hmem⟩
  · exact .inr ⟨hm, ha, hsum, hcount⟩

/-- A step on another request id leaves `rid` untouched: `tool_result`
variant. -/
theorem plUserBlock_untouched (aid ts tag rid : String) (st : PLState) (block : J)
    (st' : PLState) (hne : tag ≠ rid) (h : plUserBlock aid ts tag st block = .ok st') :
    RidUntouched rid st st' := by
  obtain ⟨hs, ha, hd, hg, new, hev, hprop⟩ := plUserBlock_tok aid ts tag st block st' h
  refine ⟨?_, by rw [hs], by rw [ha], by rw [hd], by rw [hg]⟩
  rw [hev, eventsFor_append]
  have : eventsFor new rid = [] := by
    rw [eventsFor, List.filter_eq_nil_iff]
    intro e he
    rw [(hprop e he).1]
    simp [hne]
  rw [this, List.append_nil]

/-- A step on another request id leaves `rid` untouched: assistant content
block variant. -/
theorem plBlock_untouched (aid ts r' rid : String) (u : Int × Int × Int) (st : PLState)
    (block : J) (st' : PLState) (hne : r' ≠ rid) (h : plBlock aid ts r' u st block = .ok st') :
    RidUntouched rid st st' := by
  obtain ⟨hs, hd, hg, new, hev, ht, hc⟩ := plBlock_tok aid ts r' u st block st' h
  have hvnew : eventsFor new rid = [] := by
    rw [eventsFor, List.filter_eq_nil_iff]
    intro e he
    rw [ht e he]
    simp [hne]
  have hievents : eventsFor st'.session.events rid = eventsFor st.session.events rid := by
    rw [hev, eventsFor_append, hvnew, List.append_nil]
  rcases hc with ⟨ha, _, _⟩ | ⟨_, _, ha, _, _⟩
  · exact ⟨hievents, by rw [hs], by rw [ha], by rw [hd], by rw [hg]⟩
  · refine ⟨hievents, by rw [hs], ?_, by rw [hd], by rw [hg]⟩
    rw [ha, List.mem_cons]
    exact ⟨fun hmm => hmm.elim (fun hh => absurd hh.symm hne) id, fun hh => .inr hh⟩

/-- An `Except`-valued fold preserves any reflexive transitive relation
that each step over a member of the list establishes. -/
theorem foldlM_rel_mem {σ β : Type} {f : σ → β → Except PErr σ} {P : σ → σ → Prop}
    (hrefl : ∀ s, P s s) (htrans : ∀ a b c, P a b → P b c → P a c) :
    ∀ (l : List β), (∀ s b, b ∈ l → ∀ s', f s b = .ok s' → P s s') →
      ∀ (s s' : σ), l.foldlM f s = .ok s' → P s s'
  | [], _, s, s', h => by
    simp only [List.foldlM_nil] at h
    cases h
    exact hrefl s
  | b :: l, hf, s, s', h => by
    rw [List.foldlM_cons] at h
    cases hfb : f s b with
    | error e => rw [hfb] at h; exact Except.noConfusion h
    | ok s1 =>
      rw [hfb] at h
      exact htrans s s1 s' (hf s b (List.mem_cons_self _ _) s1 hfb)
        (foldlM_rel_mem hrefl htrans l (fun s2 b2 hb2 => hf s2 b2 (List.mem_cons_of_mem _ hb2))
          s1 s' h)



/-- Extraction of the accounting outcome from a run of assistant blocks
that starts with `rid` unattributed, no `rid` events, and delta `u`
recorded. -/
theorem DoneFor_of_relSelf {rid : String} {u : Int × Int × Int} {x y : PLState}
    (hrel : RelSelf rid u x y) (hev : eventsFor x.session.events rid = [])
    (hd : deltaGet x.deltas rid = u) (hasg : rid ∉ x.assigned) : DoneFor rid y := by
  obtain ⟨hs, hdel, hg, new, hE, ht, hc⟩ := hrel
  have hfor : eventsFor y.session.events rid = new := by
    rw [hE, eventsFor_append, hev, List.nil_append, eventsFor, List.filter_eq_self]
    intro e he
    simp [ht e he]
  have hdy : deltaGet y.deltas rid = u := by
    rw [deltaGet, hdel, ← deltaGet]
    exact hd
  rcases hc with ⟨ha, hz, hb⟩ | ⟨hn, ha, hsum, hcount⟩
  · refine ⟨.inr ⟨?_, ?_⟩, ?_⟩
    · rw [hfor]
      exact sumTok_zero _ hz
    · rw [hfor]
      exact hb hasg
    · rw [hfor, countP_zero_of_zeroTok _ hz]
      exact Nat.zero_le 1
  · refine ⟨.inl ?_, ?_⟩
    · rw [hfor, hdy]
      exact hsum
    · rw [hfor]
      exact hcount

theorem untouched_addEvent {rid : String} (st : PLState) (ev : Event) (hne : ev.req ≠ rid) :
    RidUntouched rid st (addEvent st ev) := by
  refine ⟨?_, Iff.rfl, Iff.rfl, rfl, rfl⟩
  show eventsFor (st.session.events ++ [ev]) rid = eventsFor st.session.events rid
  rw [eventsFor_append]
  have : eventsFor [ev] rid = [] := by simp [eventsFor, hne]
  rw [this, List.append_nil]

set_option maxHeartbeats 6400000 in
/-- Per-record accounting: a record whose request id differs from `rid`
leaves all `rid` bookkeeping untouched, and any record processed from a
`rid`-fresh state with the owning agent present establishes the accounting
outcome for `rid`. -/
theorem plRecord_rid (aid rid : String) (st : PLState) (rec : J) (st' : PLState)
    (h : plRecord aid st rec = .ok st') :
    (ridTag rec ≠ rid → RidUntouched rid st st') ∧
    (rid ≠ "" → FreshFor rid st → (agentGet st.session.agents aid).isSome →
      DoneFor rid st') := by
  simp only [plRecord, bind, Except.bind, pure, Except.pure] at h
  cases h1 : pyGetD rec "type" J.null with
  | error e =>
    rw [h1] at h
    exact Except.noConfusion h
  | ok t =>
  rw [h1] at h
  dsimp only at h
  cases h2 : pyGetD rec "timestamp" (J.str "") with
  | error e =>
    rw [h2] at h
    exact Except.noConfusion h
  | ok tsJ =>
  rw [h2] at h
  dsimp only at h
  cases h3 : asStr tsJ with
  | error e =>
    rw [h3] at h
    exact Except.noConfusion h
  | ok ts =>
  rw [h3] at h
  dsimp only at h
  by_cases hU : t.isS "user" = true
  · rw [if_pos hU] at h
    cases h4 : pyGetD rec "message" (J.obj []) with
    | error e =>
      rw [h4] at h
      exact Except.noConfusion h
    | ok msg =>
    rw [h4] at h
    dsimp only at h
    cases h5 : pyGetD msg "content" (J.str "") with
    | error e =>
      rw [h5] at h
      exact Except.noConfusion h
    | ok c =>
    rw [h5] at h
    dsimp only at h
    cases c with
    | str s =>
      dsimp only at h
      split at h
      · injection h with h
        subst h
        refine ⟨fun hne => untouched_addEvent st _ hne, fun hr hf hag => ?_⟩
        refine DoneFor_zero hf.1 ⟨[_], rfl, ?_⟩
        intro e he
        rw [List.mem_singleton] at he
        subst he
        exact ⟨⟨rfl, rfl, rfl⟩, by simp [tokenBearing]⟩
      · injection h with h
        subst h
        exact ⟨fun _ => RidUntouched.ridRefl rid st, fun _ hf _ => DoneFor_nil hf.1⟩
    | arr blocks =>
      dsimp only at h
      refine ⟨fun hne => ?_, fun hr hf hag => ?_⟩
      · exact foldlM_rel (P := fun x y => RidUntouched rid x y)
          (RidUntouched.ridRefl rid) (fun a b c hab hbc => RidUntouched.ridTrans hab hbc)
          (fun a b c hh => plUserBlock_untouched aid ts (ridTag rec) rid a b c hne hh)
          blocks st st' h
      · have hrel := foldlM_rel (P := fun x y => RelU x y)
          RelU.uRefl (fun a b c hab hbc => RelU.uTrans hab hbc)
          (fun a b c hh => plUserBlock_relU aid ts (ridTag rec) a b c hh)
          blocks st st' h
        obtain ⟨-, -, -, -, new, hev, hprop⟩ := hrel
        exact DoneFor_zero hf.1 ⟨new, hev, hprop⟩
    | null =>
      dsimp only at h
      injection h with h
      subst h
      exact ⟨fun _ => RidUntouched.ridRefl rid st, fun _ hf _ => DoneFor_nil hf.1⟩
    | bool b =>
      dsimp only at h
      injection h with h
      subst h
      exact ⟨fun _ => RidUntouched.ridRefl rid st, fun _ hf _ => DoneFor_nil hf.1⟩
    | num n =>
      dsimp only at h
      injection h with h
      subst h
      exact ⟨fun _ => RidUntouched.ridRefl rid st, fun _ hf _ => DoneFor_nil hf.1⟩
    | obj fs =>
      dsimp only at h
      injection h with h
      subst h
      exact ⟨fun _ => RidUntouched.ridRefl rid st, fun _ hf _ => DoneFor_nil hf.1⟩
  · rw [if_neg hU] at h
    by_cases hA : t.isS "assistant" = true
    · rw [if_pos hA] at h
      cases h4 : pyGetD rec "message" (J.obj []) with
      | error e =>
        rw [h4] at h
        exact Except.noConfusion h
      | ok msg =>
      rw [h4] at h
      dsimp only at h
      cases h5 : pyGetD msg "content" (J.arr []) with
      | error e =>
        rw [h5] at h
        exact Except.noConfusion h
      | ok cbJ =>
      rw [h5] at h
      dsimp only at h
      cases h6 : pyGetD msg "usage" (J.obj []) with
      | error e =>
        rw [h6] at h
        exact Except.noConfusion h
      | ok usage =>
      rw [h6] at h
      dsimp only at h
      cases h7 : pyGetD rec "requestId" (J.str "") with
      | error e =>
        rw [h7] at h
        exact Except.noConfusion h
      | ok rv =>
      rw [h7] at h
      dsimp only at h
      cases h8 : asStr rv with
      | error e =>
        rw [h8] at h
        exact Except.noConfusion h
      | ok R =>
      rw [h8] at h
      dsimp only at h
      cases h9 : pyGetD usage "input_tokens" (J.num 0) with
      | error e =>
        rw [h9] at h
        exact Except.noConfusion h
      | ok w1 =>
      rw [h9] at h
      dsimp only at h
      cases h10 : asInt w1 with
      | error e =>
        rw [h10] at h
        exact Except.noConfusion h
      | ok inT =>
      rw [h10] at h
      dsimp only at h
      cases h11 : pyGetD usage "output_tokens" (J.num 0) with
      | error e =>
        rw [h11] at h
        exact Except.noConfusion h
      | ok w2 =>
      rw [h11] at h
      dsimp only at h
      cases h12 : asInt w2 with
      | error e =>
        rw [h12] at h
        exact Except.noConfusion h
      | ok outT =>
      rw [h12] at h
      dsimp only at h
      cases h13 : pyGetD usage "cache_read_input_tokens" (J.num 0) with
      | error e =>
        rw [h13] at h
        exact Except.noConfusion h
      | ok w3 =>
      rw [h13] at h
      dsimp only at h
      cases h14 : asInt w3 with
      | error e =>
        rw [h14] at h
        exact Except.noConfusion h
      | ok cacheT =>
      rw [h14] at h
      dsimp only at h
      have hRT : ridTag rec = R := ridTag_of_reads h7 h8
      have huntouched : R ≠ rid → RidUntouched rid st st' := by
        intro hne'
        have hne'' : rid ≠ R := Ne.symm hne'
        by_cases hfire : R ≠ "" ∧ R ∉ st.seen
        · rw [if_pos hfire] at h
          cases hag : agentGet st.session.agents aid with
          | some a =>
            rw [hag] at h
            dsimp only at h
            have huST : RidUntouched rid st
                { st with
                  seen := R :: st.seen,
                  session := { st.session with
                    agents := agentUpd st.session.agents aid fun a =>
                      { a with
                        input_tokens := a.input_tokens + inT,
                        output_tokens := a.output_tokens + outT,
                        cache_read_tokens := a.cache_read_tokens + cacheT } },
                  deltas := st.deltas ++ [(R, inT, outT, cacheT)] } := by
              refine ⟨rfl, ?_, Iff.rfl, ?_, ?_⟩
              · simp [List.mem_cons, hne'']
              · exact find?_append_single _ _ _ _ (by simp [hne'])
              · exact agentUpd_map_fst _ _ _
            cases cbJ with
            | arr blocks =>
              dsimp only at h
              refine RidUntouched.ridTrans huST ?_
              exact foldlM_rel (P := fun x y => RidUntouched rid x y)
                (RidUntouched.ridRefl rid) (fun a b c hab hbc => RidUntouched.ridTrans hab hbc)
                (fun a b c hh => plBlock_untouched aid ts R rid (inT, outT, cacheT) a b c hne' hh)
                blocks _ st' h
            | null =>
              dsimp only at h
              injection h with h
              subst h
              exact huST
            | bool b =>
              dsimp only at h
              injection h with h
              subst h
              exact huST
            | num n =>
              dsimp only at h
              injection h with h
              subst h
              exact huST
            | str s =>
              dsimp only at h
              injection h with h
              subst h
              exact huST
            | obj fs =>
              dsimp only at h
              injection h with h
              subst h
              exact huST
          | none =>
            rw [hag] at h
            dsimp only at h
            have huST : RidUntouched rid st { st with seen := R :: st.seen } := by
              refine ⟨rfl, ?_, Iff.rfl, rfl, rfl⟩
              simp [List.mem_cons, hne'']
            cases cbJ with
            | arr blocks =>
              dsimp only at h
              refine RidUntouched.ridTrans huST ?_
              exact foldlM_rel (P := fun x y => RidUntouched rid x y)
                (RidUntouched.ridRefl rid) (fun a b c hab hbc => RidUntouched.ridTrans hab hbc)
                (fun a b c hh => plBlock_untouched aid ts R rid (inT, outT, cacheT) a b c hne' hh)
                blocks _ st' h
            | null =>
              dsimp only at h
              injection h with h
              subst h
              exact huST
            | bool b =>
              dsimp only at h
              injection h with h
              subst h
              exact huST
            | num n =>
              dsimp only at h
              injection h with h
              subst h
              exact huST
            | str s =>
              dsimp only at h
              injection h with h
              subst h
              exact huST
            | obj fs =>
              dsimp only at h
              injection h with h
              subst h
              exact huST
        · rw [if_neg hfire] at h
          cases cbJ with
          | arr blocks =>
            dsimp only at h
            exact foldlM_rel (P := fun x y => RidUntouched rid x y)
              (RidUntouched.ridRefl rid) (fun a b c hab hbc => RidUntouched.ridTrans hab hbc)
              (fun a b c hh => plBlock_untouched aid ts R rid (inT, outT, cacheT) a b c hne' hh)
              blocks _ st' h
          | null =>
            dsimp only at h
            injection h with h
            subst h
            exact RidUntouched.ridRefl rid st
          | bool b =>
            dsimp only at h
            injection h with h
            subst h
            exact RidUntouched.ridRefl rid st
          | num n =>
            dsimp only at h
            injection h with h
            subst h
            exact RidUntouched.ridRefl rid st
          | str s =>
            dsimp only at h
            injection h with h
            subst h
            exact RidUntouched.ridRefl rid st
          | obj fs =>
            dsimp only at h
            injection h with h
            subst h
            exact RidUntouched.ridRefl rid st
      refine ⟨fun hne => huntouched (hRT ▸ hne), ?_⟩
      intro hr hf hag
      by_cases hR : R = rid
      · rw [hR] at h
        rw [if_pos ⟨hr, hf.2.1⟩] at h
        obtain ⟨a, hga⟩ := Option.isSome_iff_exists.mp hag
        rw [hga] at h
        dsimp only at h
        have hdST : deltaGet (st.deltas ++ [(rid, inT, outT, cacheT)]) rid =
            (inT, outT, cacheT) := by
          rw [deltaGet, find?_append_right _ _ _ hf.2.2.2]
          simp [List.find?_cons]
        cases cbJ with
        | arr blocks =>
          dsimp only at h
          have hrel := foldlM_rel (P := fun x y => RelSelf rid (inT, outT, cacheT) x y)
            (RelSelf.selfRefl rid _) (fun a b c hab hbc => RelSelf.selfTrans hab hbc)
            (fun a b c hh => plBlock_relSelf aid ts rid (inT, outT, cacheT) a b c hr hh)
            blocks _ st' h
          exact DoneFor_of_relSelf hrel hf.1 hdST hf.2.2.1
        | null =>
          dsimp only at h
          injection h with h
          subst h
          exact DoneFor_nil hf.1
        | bool b =>
          dsimp only at h
          injection h with h
          subst h
          exact DoneFor_nil hf.1
        | num n =>
          dsimp only at h
          injection h with h
          subst h
          exact DoneFor_nil hf.1
        | str s =>
          dsimp only at h
          injection h with h
          subst h
          exact DoneFor_nil hf.1
        | obj fs =>
          dsimp only at h
          injection h with h
          subst h
          exact DoneFor_nil hf.1
      · exact DoneFor_nil ((freshFor_untouched hf (huntouched hR)).1)
    · rw [if_neg hA] at h
      injection h with h
      subst h
      exact ⟨fun _ => RidUntouched.ridRefl rid st, fun _ hf _ => DoneFor_nil hf.1⟩



set_option maxHeartbeats 1600000 in
/-- C2 (amended): within one `_process_lines` pass over an agent's records,
for a request identifier occurring in exactly one record (here given by the
split `lines = pre ++ r :: post` with the identifier absent from `pre` and
`post`), with the owning agent present and no prior events for the
identifier: either the componentwise sum of the token fields over the
events produced for the identifier equals the one-time delta added to the
owning agent's counters, or no token-bearing (thinking / tool-use) event
was produced for it and its events sum to zero while the delta may still
be non-zero; in all cases at most one event for the identifier carries
non-zero token values. -/
theorem claude_token_accounting (lines pre post : List J) (r : J) (aid rid : String)
    (s0 s1 : Session) (ds : List (String × Int × Int × Int))
    (h : processLines lines aid s0 = .ok (s1, ds))
    (hsplit : lines = pre ++ r :: post)
    (hpre : ∀ l ∈ pre, ridTag l ≠ rid)
    (hpost : ∀ l ∈ post, ridTag l ≠ rid)
    (hrid : rid ≠ "")
    (hev : eventsFor s0.events rid = [])
    (hagent : (agentGet s0.agents aid).isSome) :
    (sumTok (eventsFor s1.events rid) = deltaGet ds rid ∨
      (sumTok (eventsFor s1.events rid) = (0, 0, 0) ∧
        ∀ e ∈ eventsFor s1.events rid, ¬ tokenBearing e.type)) ∧
    (eventsFor s1.events rid).countP tokNonzeroB ≤ 1 := by
  subst hsplit
  simp only [processLines, bind, Except.bind, pure, Except.pure] at h
  cases hfold : (pre ++ r :: post).foldlM (plRecord aid) ⟨s0, [], [], []⟩ with
  | error e =>
    rw [hfold] at h
    exact Except.noConfusion h
  | ok stF =>
    rw [hfold] at h
    dsimp only at h
    injection h with h
    have hs1 : s1 = stF.session := (congrArg Prod.fst h).symm
    have hds : ds = stF.deltas := (congrArg Prod.snd h).symm
    rw [List.foldlM_append] at hfold
    simp only [bind, Except.bind] at hfold
    cases hpreF : pre.foldlM (plRecord aid) (⟨s0, [], [], []⟩ : PLState) with
    | error e =>
      rw [hpreF] at hfold
      exact Except.noConfusion hfold
    | ok stPre =>
      rw [hpreF] at hfold
      dsimp only at hfold
      rw [List.foldlM_cons] at hfold
      simp only [bind, Except.bind] at hfold
      cases hrF : plRecord aid stPre r with
      | error e =>
        rw [hrF] at hfold
        exact Except.noConfusion hfold
      | ok stR =>
        rw [hrF] at hfold
        dsimp only at hfold
        have hfresh0 : FreshFor rid ⟨s0, [], [], []⟩ :=
          ⟨hev, List.not_mem_nil rid, List.not_mem_nil rid, rfl⟩
        have huPre : RidUntouched rid ⟨s0, [], [], []⟩ stPre :=
          foldlM_rel_mem (P := fun x y => RidUntouched rid x y)
            (RidUntouched.ridRefl rid) (fun a b c hab hbc => RidUntouched.ridTrans hab hbc)
            pre (fun s b hb s' hh => (plRecord_rid aid rid s b s' hh).1 (hpre b hb))
            _ _ hpreF
        have hfreshPre : FreshFor rid stPre := freshFor_untouched hfresh0 huPre
        have hagentPre : (agentGet stPre.session.agents aid).isSome := by
          rw [agentGet_isSome_iff, huPre.2.2.2.2]
          exact (agentGet_isSome_iff s0.agents aid).mp hagent
        have hdoneR : DoneFor rid stR :=
          (plRecord_rid aid rid stPre r stR hrF).2 hrid hfreshPre hagentPre
        have hdoneF : DoneFor rid stF :=
          foldlM_rel_mem (P := fun x y => DoneFor rid x → DoneFor rid y)
            (fun s hd => hd) (fun a b c hab hbc hd => hbc (hab hd))
            post (fun s b hb s' hh hd =>
              doneFor_untouched hd ((plRecord_rid aid rid s b s' hh).1 (hpost b hb)))
            _ _ hfold hdoneR
        rw [hs1, hds]
        exact ⟨hdoneF.1, hdoneF.2⟩

/-- An assistant record with request id `r1`, usage `(10, 5, 2)` and a
single `thinking` content block. -/
def c2ThinkRec : J :=
  J.obj [("type", J.str "assistant"), ("timestamp", J.str "t1"),
    ("requestId", J.str "r1"),
    ("message", J.obj [
      ("content", J.arr [J.obj [("type", J.str "thinking"), ("thinking", J.str "hmm")]]),
      ("usage", J.obj [("input_tokens", J.num 10), ("output_tokens", J.num 5),
        ("cache_read_input_tokens", J.num 2)])])]

/-- The session produced from `c2ThinkRec`: the think event carries the
full token triple, which also is the agent's one-time delta. -/
def c2ThinkSession : Session :=
  { id := "unknown",
    agents := [("main",
      { id := "main", name := "Main", color := "cyan", input_tokens := 10,
        output_tokens := 5, cache_read_tokens := 2 })],
    events := [
      { timestamp := "t1", type := .THINK, agent_id := "main", content := "hmm",
        input_tokens := 10, output_tokens := 5, cache_read_tokens := 2,
        req := "r1" }] }

theorem claude_token_accounting_witness :
    processLines [c2ThinkRec] "main" claudeInit =
      .ok (c2ThinkSession, [("r1", 10, 5, 2)]) ∧
    ((sumTok (eventsFor c2ThinkSession.events "r1") =
        deltaGet [("r1", 10, 5, 2)] "r1" ∨
      (sumTok (eventsFor c2ThinkSession.events "r1") = (0, 0, 0) ∧
        ∀ e ∈ eventsFor c2ThinkSession.events "r1", ¬ tokenBearing e.type)) ∧
     (eventsFor c2ThinkSession.events "r1").countP tokNonzeroB ≤ 1) :=
  ⟨rfl, claude_token_accounting [c2ThinkRec] [] [] c2ThinkRec "main" "r1" claudeInit
    c2ThinkSession [("r1", 10, 5, 2)] rfl rfl
    (fun l hl => absurd hl (List.not_mem_nil l))
    (fun l hl => absurd hl (List.not_mem_nil l))
    (by decide) rfl rfl⟩

/-- An assistant record with request id `r1`, usage `(10, 5, 2)` and a
single `text` content block: no token-bearing event is produced. -/
def c2Rec : J :=
  J.obj [("type", J.str "assistant"), ("timestamp", J.str "t1"),
    ("requestId", J.str "r1"),
    ("message", J.obj [
      ("content", J.arr [J.obj [("type", J.str "text"), ("text", J.str "hi")]]),
      ("usage", J.obj [("input_tokens", J.num 10), ("output_tokens", J.num 5),
        ("cache_read_input_tokens", J.num 2)])])]

/-- The session produced from `c2Rec`: the agent received the `(10, 5, 2)`
delta but the only event for `r1` is a zero-token text event. -/
def c2Session : Session :=
  { id := "unknown",
    agents := [("main",
      { id := "main", name := "Main", color := "cyan", input_tokens := 10,
        output_tokens := 5, cache_read_tokens := 2 })],
    events := [
      { timestamp := "t1", type := .TEXT, agent_id := "main", content := "hi",
        req := "r1" }] }

/-- C2 counterexample: a text-only assistant response with a request id and
non-zero usage adds the one-time delta `(10, 5, 2)` to the owning agent,
yet the events produced for that identifier sum to zero and none of them
carries non-zero token values — so the sum does not equal the delta and no
event carries the non-zero values, contradicting the claim. -/
theorem claude_token_sum_mismatch :
    processLines [c2Rec] "main" claudeInit = .ok (c2Session, [("r1", 10, 5, 2)]) ∧
    deltaGet [("r1", 10, 5, 2)] "r1" = (10, 5, 2) ∧
    eventsFor c2Session.events "r1" ≠ [] ∧
    sumTok (eventsFor c2Session.events "r1") = (0, 0, 0) ∧
    ∀ e ∈ eventsFor c2Session.events "r1", tokNonzeroB e = false :=
  ⟨rfl, by decide, by decide, by decide, by decide⟩

end AgentReplay
